import Mathlib

/-!
Verification of the text-cleaning and content-distribution pipeline of the
ppt-generator repository (files emotion.py and maincont.py).

The Python functions are shallowly embedded as executable Lean functions over
List Char (one element per Unicode code point, matching Python string
indexing and len).  Regular-expression substitutions are embedded as direct
left-to-right scanners with the same non-overlapping leftmost-match semantics
as re.sub / re.split on the concrete patterns appearing in the source.
-/

namespace PPT

/-! ## Python whitespace model

The character set matched by the regex class backslash-s and by str.strip /
str.split in Python 3 (Unicode whitespace).  All characters exercised by this
code base are covered. -/

def pyIsSpace (c : Char) : Bool :=
  c = ' ' || c = '\t' || c = '\n' || c = '\r' || c.toNat = 0x0b || c.toNat = 0x0c ||
  c.toNat = 0x1c || c.toNat = 0x1d || c.toNat = 0x1e || c.toNat = 0x1f ||
  c.toNat = 0x85 || c.toNat = 0xa0 || c.toNat = 0x1680 ||
  (0x2000 ≤ c.toNat && c.toNat ≤ 0x200a) ||
  c.toNat = 0x2028 || c.toNat = 0x2029 || c.toNat = 0x202f || c.toNat = 0x205f ||
  c.toNat = 0x3000

/-- Python str.strip seen from the left only: drop leading whitespace. -/
def dropLeadingWs (l : List Char) : List Char := l.dropWhile pyIsSpace

/-- Drop trailing whitespace (strip seen from the right). -/
def dropTrailingWs (l : List Char) : List Char :=
  ((l.reverse).dropWhile pyIsSpace).reverse

/-- Python str.strip(): remove leading and trailing whitespace. -/
def pyStrip (l : List Char) : List Char := dropTrailingWs (dropLeadingWs l)

/-- One pass of re.sub replacing every maximal whitespace run by a single
space; the flag records whether the previous character was whitespace. -/
def collapseWs : Bool → List Char → List Char
  | _, [] => []
  | prevSp, c :: rest =>
    if pyIsSpace c then
      if prevSp then collapseWs true rest
      else ' ' :: collapseWs true rest
    else c :: collapseWs false rest

/-- Embeds _normalize_whitespace: collapse whitespace runs, then strip. -/
def normalizeWhitespaceL (l : List Char) : List Char :=
  pyStrip (collapseWs false l)

/-- Python str.split() with no separator: maximal nonempty runs of
non-whitespace characters.  The first argument accumulates the current word
in reverse. -/
def pySplitWsAux : List Char → List Char → List (List Char)
  | cur, [] => if cur = [] then [] else [cur.reverse]
  | cur, c :: rest =>
    if pyIsSpace c then
      if cur = [] then pySplitWsAux [] rest
      else cur.reverse :: pySplitWsAux [] rest
    else pySplitWsAux (c :: cur) rest

def pySplitWs (l : List Char) : List (List Char) := pySplitWsAux [] l

/-! ## Generic scanner utilities -/

/-- Split a character list at the first occurrence of the nonempty literal
pattern pat, returning the part before the occurrence and the part after it.
Returns none when pat does not occur. -/
def splitOnFirst (pat : List Char) : List Char → Option (List Char × List Char)
  | [] => none
  | c :: rest =>
    if pat.isPrefixOf (c :: rest) then some ([], (c :: rest).drop pat.length)
    else
      match splitOnFirst pat rest with
      | some (a, b) => some (c :: a, b)
      | none => none

/-- Left-to-right non-overlapping replacement of the literal pattern pat by
rep, the semantics of Python str.replace (and of re.sub on a literal
pattern).  Fuel-driven; with fuel at least the length of the input it scans
the whole input. -/
def replaceAllAux (pat rep : List Char) : Nat → List Char → List Char
  | _, [] => []
  | 0, l => l
  | fuel + 1, c :: rest =>
    if pat.isPrefixOf (c :: rest) then
      rep ++ replaceAllAux pat rep fuel ((c :: rest).drop pat.length)
    else c :: replaceAllAux pat rep fuel rest

def replaceAll (pat rep l : List Char) : List Char :=
  replaceAllAux pat rep l.length l

/-! ## Text Normalizer (emotion.py)

_clean_html_entities, _clean_escape_characters, _remove_html_tags,
_normalize_whitespace and their composition _validate_and_clean_text_input. -/

/-- Digits of a decimal numeric character reference folded to its value. -/
def decVal (ds : List Char) : Nat :=
  ds.foldl (fun a c => a * 10 + (c.toNat - 48)) 0

/-- Named HTML character references decoded by the cleaning pipeline, longest
form first so that longest-match wins.  Model of the Python stdlib
html.unescape (an external collaborator) restricted to the entity vocabulary
this repository handles (spec 4.1): amp, lt, gt, nbsp, quot, apos, hellip,
mdash, ndash, with the HTML5 semicolon-optional forms of amp/lt/gt/quot/nbsp.
Any other ampersand sequence is left unchanged. -/
def namedEntities : List (List Char × Char) :=
  [(("hellip;").toList, (Char.ofNat 0x2026)),
   (("mdash;").toList, (Char.ofNat 0x2014)),
   (("ndash;").toList, (Char.ofNat 0x2013)),
   (("nbsp;").toList, (Char.ofNat 0xa0)),
   (("quot;").toList, (Char.ofNat 34)),
   (("apos;").toList, (Char.ofNat 39)),
   (("amp;").toList, '&'),
   (("lt;").toList, '<'),
   (("gt;").toList, '>'),
   (("nbsp").toList, (Char.ofNat 0xa0)),
   (("quot").toList, (Char.ofNat 34)),
   (("amp").toList, '&'),
   (("lt").toList, '<'),
   (("gt").toList, '>')]

/-- First named entity that is a prefix of the text following an ampersand,
together with the rest of the text after the entity. -/
def findNamed (l : List Char) : Option (Char × List Char) :=
  (namedEntities.filterMap fun pc =>
    if pc.1.isPrefixOf l then some (pc.2, l.drop pc.1.length) else none).head?

/-- Scanner for the html.unescape model: decodes the named references of
namedEntities and decimal numeric references with a semicolon that denote a
valid Unicode scalar value; everything else is copied unchanged. -/
def pyUnescapeAux : Nat → List Char → List Char
  | _, [] => []
  | 0, l => l
  | fuel + 1, c :: rest =>
    if c = '&' then
      match findNamed rest with
      | some (ch, rest2) => ch :: pyUnescapeAux fuel rest2
      | none =>
        if rest.head? = some '#' then
          let ds := rest.tail.takeWhile Char.isDigit
          let rest2 := rest.tail.drop ds.length
          if ds ≠ [] ∧ rest2.head? = some ';' ∧ decVal ds < 0xd800 then
            Char.ofNat (decVal ds) :: pyUnescapeAux fuel rest2.tail
          else '&' :: pyUnescapeAux fuel rest
        else '&' :: pyUnescapeAux fuel rest
    else c :: pyUnescapeAux fuel rest

def pyUnescape (l : List Char) : List Char := pyUnescapeAux l.length l

/-- The replacements dictionary of _clean_html_entities in its Python
insertion order; each pair is applied with str.replace in sequence. -/
def entityReplacements : List (List Char × List Char) :=
  [(("&amp;").toList, ("&").toList),
   (("&lt;").toList, ("<").toList),
   (("&gt;").toList, (">").toList),
   (("&nbsp;").toList, (" ").toList),
   (("&quot;").toList, [Char.ofNat 34]),
   (("&#39;").toList, [Char.ofNat 39]),
   (("&hellip;").toList, ("...").toList),
   (("&mdash;").toList, [Char.ofNat 0x2014]),
   (("&ndash;").toList, [Char.ofNat 0x2013])]

/-- Embeds _clean_html_entities: html.unescape followed by the replacement
dictionary. -/
def cleanHtmlEntitiesL (l : List Char) : List Char :=
  entityReplacements.foldl (fun acc pr => replaceAll pr.1 pr.2 acc) (pyUnescape l)

/-- One re.sub pass deleting a backslash that immediately precedes a
character of cs (leftmost, non-overlapping). -/
def subEscape (cs : List Char) : List Char → List Char
  | [] => []
  | c :: rest =>
    if c = '\\' then
      match rest with
      | [] => [c]
      | d :: rest2 =>
        if d ∈ cs then d :: subEscape cs rest2
        else c :: subEscape cs (d :: rest2)
    else c :: subEscape cs rest

/-- The punctuation class of the first escape-removal regex. -/
def escPunct : List Char :=
  ['.', ',', ';', ':', '!', '?', '(', ')', '[', ']', Char.ofNat 0x7b, Char.ofNat 0x7d]

/-- Embeds _clean_escape_characters: six sequential re.sub passes. -/
def cleanEscapeCharactersL (l : List Char) : List Char :=
  subEscape [Char.ofNat 39]
    (subEscape [Char.ofNat 34]
      (subEscape ['-']
        (subEscape ['_']
          (subEscape ['*'] (subEscape escPunct l)))))

/-- Scanner for the first regex of _remove_html_tags: a span tag (open
bracket, the word span, any non-close-bracket characters, close bracket) is
unwrapped, keeping the minimal content up to the next literal span-closing
tag; content is emitted as-is (re.sub never rescans a replacement).  When no
complete span pair starts at the current position the search continues one
character further, as the regex engine does. -/
def spanUnwrapAux : Nat → List Char → List Char
  | _, [] => []
  | 0, l => l
  | fuel + 1, c :: rest =>
    if c = '<' ∧ ("span").toList.isPrefixOf rest then
      match splitOnFirst ['>'] (rest.drop 4) with
      | some (_, afterGt) =>
        match splitOnFirst (("</span>").toList) afterGt with
        | some (content, afterClose) => content ++ spanUnwrapAux fuel afterClose
        | none => '<' :: spanUnwrapAux fuel rest
      | none => '<' :: spanUnwrapAux fuel rest
    else c :: spanUnwrapAux fuel rest

/-- The tag names of the second regex of _remove_html_tags. -/
def tagNames : List (List Char) :=
  [("div").toList, ("p").toList, ("br").toList, ("strong").toList,
   ("em").toList, ("b").toList, ("i").toList, ("u").toList, ("font").toList]

/-- Scanner for the second regex: an open bracket, an optional slash, one of
the tag names, then everything up to the first close bracket, is removed.
Because the regex tail accepts any non-close-bracket run, a match exists
exactly when the text after the optional slash starts with a tag name and a
close bracket occurs later; the match always ends at the first close
bracket. -/
def namedTagAux : Nat → List Char → List Char
  | _, [] => []
  | 0, l => l
  | fuel + 1, c :: rest =>
    if c = '<' then
      let body := if rest.head? = some '/' then rest.tail else rest
      if tagNames.any (fun n => n.isPrefixOf body) then
        match splitOnFirst ['>'] body with
        | some (_, afterGt) => namedTagAux fuel afterGt
        | none => '<' :: namedTagAux fuel rest
      else '<' :: namedTagAux fuel rest
    else c :: namedTagAux fuel rest

/-- Scanner for the third regex: any remaining tag (open bracket, at least
one non-close-bracket character, close bracket) is removed. -/
def anyTagAux : Nat → List Char → List Char
  | _, [] => []
  | 0, l => l
  | fuel + 1, c :: rest =>
    if c = '<' then
      let a := rest.takeWhile (fun x => x ≠ '>')
      let b := rest.drop a.length
      if a ≠ [] ∧ b.head? = some '>' then anyTagAux fuel b.tail
      else '<' :: anyTagAux fuel rest
    else c :: anyTagAux fuel rest

/-- Embeds _remove_html_tags: span unwrapping, named-tag removal, then
catch-all tag removal. -/
def removeHtmlTagsL (l : List Char) : List Char :=
  let l1 := spanUnwrapAux l.length l
  let l2 := namedTagAux l1.length l1
  anyTagAux l2.length l2

/-- Embeds _validate_and_clean_text_input on a string argument: the four
cleaning passes in their fixed order. -/
def cleanTextL (l : List Char) : List Char :=
  normalizeWhitespaceL (removeHtmlTagsL (cleanEscapeCharactersL (cleanHtmlEntitiesL l)))

def cleanText (s : String) : String := String.mk (cleanTextL s.toList)

/-- A Python value passed to _validate_and_clean_text_input: None, a str, or
any other object carrying its str() rendering. -/
inductive PyValue where
  | pyNone : PyValue
  | pyStr : String → PyValue
  | pyOther : String → PyValue
deriving DecidableEq, Repr

/-- Embeds _validate_and_clean_text_input including its None and
non-string branches: None returns the empty string at once; a non-string is
converted with str() and then cleaned like a string. -/
def validateAndCleanTextInput : PyValue → String
  | PyValue.pyNone => ""
  | PyValue.pyStr s => cleanText s
  | PyValue.pyOther r => cleanText r

/-! ## Rich-Text Formatter (emotion.py)

_process_text_formatting and _apply_text_formatting.  A paragraph is
modelled by its ordered run list; each run carries text and the two style
flags the code sets. -/

structure TextRun where
  text : String
  bold : Bool
  italic : Bool
deriving DecidableEq, Repr

/-- The capture group produced by the trim regexes of the form
delimiter, greedy whitespace, lazy non-delimiter content, greedy whitespace,
delimiter: leading and trailing whitespace move into the whitespace parts,
so the group is the stripped region; when the region is all whitespace the
engine backtracks and the group is the last region character. -/
def trimGroup (region : List Char) : List Char :=
  if pyStrip region = [] then
    match region.reverse with
    | r :: _ => [r]
    | [] => []
  else pyStrip region

/-- Scanner for the double-delimiter trim regexes (bold stars, double
underscore, double tilde): on a match the group is re-wrapped with openW and
closeW; scanning resumes after the match.  d is both the delimiter character
and the character excluded from the group. -/
def ddTrimAux (d : Char) (openW closeW : List Char) : Nat → List Char → List Char
  | _, [] => []
  | 0, l => l
  | fuel + 1, c :: rest =>
    if c = d ∧ rest.head? = some d then
      (let region := (rest.tail).takeWhile (fun x => x ≠ d)
       let after := (rest.tail).drop region.length
       if region ≠ [] ∧ after.head? = some d ∧ (after.tail).head? = some d then
         openW ++ trimGroup region ++ closeW ++ ddTrimAux d openW closeW fuel (after.tail.tail)
       else c :: ddTrimAux d openW closeW fuel rest)
    else c :: ddTrimAux d openW closeW fuel rest

def ddTrim (d : Char) (openW closeW : List Char) (l : List Char) : List Char :=
  ddTrimAux d openW closeW l.length l

/-- Scanner for the single-star italic trim regex with its lookarounds: the
opening star must not be preceded by a star (prev is the character before
the scan position) and the closing star must not be followed by one. -/
def italTrimAux : Nat → Option Char → List Char → List Char
  | _, _, [] => []
  | 0, _, l => l
  | fuel + 1, prev, c :: rest =>
    if c = '*' ∧ prev ≠ some '*' then
      (let region := rest.takeWhile (fun x => x ≠ '*')
       let after := rest.drop region.length
       if region ≠ [] ∧ after.head? = some '*' ∧ (after.tail).head? ≠ some '*' then
         '*' :: trimGroup region ++ '*' :: italTrimAux fuel (some '*') after.tail
       else c :: italTrimAux fuel (some c) rest)
    else c :: italTrimAux fuel (some c) rest

/-- Embeds _process_text_formatting: clean, then the four marker-normalizing
substitutions in order (bold trim, italic trim, double underscore to bold,
strikethrough removal). -/
def processTextFormattingL (l : List Char) : List Char :=
  if l = [] then []
  else
    let t := cleanTextL l
    let t1 := ddTrim '*' (['*', '*']) (['*', '*']) t
    let t2 := italTrimAux t1.length none t1
    let t3 := ddTrim '_' (['*', '*']) (['*', '*']) t2
    ddTrim '~' [] [] t3

/-- re.split on the captured bold-span pattern: parts alternate between
non-match segments (possibly empty) and full bold spans. -/
def boldSplitAux : Nat → List Char → List Char → List (List Char)
  | _, acc, [] => [acc.reverse]
  | 0, acc, l => [acc.reverse ++ l]
  | fuel + 1, acc, c :: rest =>
    if c = '*' ∧ rest.head? = some '*' then
      (let region := (rest.tail).takeWhile (fun x => x ≠ '*')
       let after := (rest.tail).drop region.length
       if region ≠ [] ∧ after.head? = some '*' ∧ (after.tail).head? = some '*' then
         acc.reverse :: ('*' :: '*' :: region ++ ['*', '*']) ::
           boldSplitAux fuel [] (after.tail.tail)
       else boldSplitAux fuel (c :: acc) rest)
    else boldSplitAux fuel (c :: acc) rest

def boldSplit (l : List Char) : List (List Char) := boldSplitAux l.length [] l

/-- re.split on the captured single-star italic pattern (no lookarounds). -/
def italSplitAux : Nat → List Char → List Char → List (List Char)
  | _, acc, [] => [acc.reverse]
  | 0, acc, l => [acc.reverse ++ l]
  | fuel + 1, acc, c :: rest =>
    if c = '*' then
      (let region := rest.takeWhile (fun x => x ≠ '*')
       let after := rest.drop region.length
       if region ≠ [] ∧ after.head? = some '*' then
         acc.reverse :: ('*' :: region ++ ['*']) :: italSplitAux fuel [] after.tail
       else italSplitAux fuel (c :: acc) rest)
    else italSplitAux fuel (c :: acc) rest

def italSplit (l : List Char) : List (List Char) := italSplitAux l.length [] l

/-- The run built for one italic-split part: italic with markers stripped
when the part is a complete single-star span, plain otherwise. -/
def italicRunOf (part : List Char) : TextRun :=
  if part.head? = some '*' ∧ part.getLast? = some '*' ∧ 2 < part.length ∧
      ¬ (['*', '*'].isPrefixOf part) then
    { text := String.mk ((part.drop 1).dropLast), bold := false, italic := true }
  else { text := String.mk part, bold := false, italic := false }

/-- Runs for a non-bold part: the code adds one run before splitting, so an
empty first italic part leaves an empty plain run; later empty parts are
skipped without adding a run. -/
def nonBoldRuns (part : List Char) : List TextRun :=
  match italSplit part with
  | [] => []
  | p0 :: ps =>
    (if p0 = [] then [{ text := "", bold := false, italic := false }]
     else [italicRunOf p0]) ++
    (ps.filter (fun p => p ≠ [])).map italicRunOf

/-- A bold-split part that is a complete bold span. -/
def isBoldPart (part : List Char) : Bool :=
  (['*', '*'].isPrefixOf part) && (['*', '*'].isPrefixOf part.reverse) &&
    decide (4 < part.length)

/-- Embeds _apply_text_formatting on a fresh paragraph, returning the run
sequence it builds: empty input leaves the paragraph untouched; if every
bold-split part is blank, a single plain run holds the original raw text;
otherwise each nonempty part yields a bold run or its italic sub-runs. -/
def applyTextFormatting (originalText : String) : List TextRun :=
  if originalText = "" then []
  else
    let parts := boldSplit (processTextFormattingL originalText.toList)
    if parts = [] ∨ parts.all (fun p => pyStrip p = []) then
      [{ text := originalText, bold := false, italic := false }]
    else
      (parts.filter (fun p => p ≠ [])).map (fun part =>
        if isBoldPart part then
          [{ text := String.mk ((part.drop 2).dropLast.dropLast), bold := true, italic := false }]
        else nonBoldRuns part) |>.flatten

/-! ## Bullet Sizer and Splitter (emotion.py)

_estimate_text_length and _split_long_bullet with their class constants. -/

def MAX_BULLETS_PER_SLIDE : Nat := 5
def COMPREHENSIVE_TEXT_THRESHOLD : Nat := 120
def MAX_TITLE_LENGTH : Nat := 65

/-- Embeds _estimate_text_length: clean, then character count above the
comprehensive threshold or word count above 20. -/
def estimateTextLengthL (l : List Char) : Bool :=
  if l = [] then false
  else
    let t := cleanTextL l
    decide (COMPREHENSIVE_TEXT_THRESHOLD < t.length) || decide (20 < (pySplitWs t).length)

/-- re.split on a lookbehind-punctuation-then-whitespace separator: a part
ends right after a punctuation character followed by whitespace, and the
whole whitespace run is consumed.  acc holds the current part reversed. -/
def splitAfterAux (punct : List Char) : Nat → List Char → List Char → List (List Char)
  | _, acc, [] => [acc.reverse]
  | 0, acc, l => [acc.reverse ++ l]
  | fuel + 1, acc, c :: rest =>
    if (decide (c ∈ punct) && (match rest.head? with | some d => pyIsSpace d | none => false)) = true then
      (c :: acc).reverse :: splitAfterAux punct fuel [] (rest.dropWhile pyIsSpace)
    else splitAfterAux punct fuel (c :: acc) rest

/-- Sentence boundaries: after a period, exclamation or question mark. -/
def sentenceSplitL (l : List Char) : List (List Char) :=
  splitAfterAux ['.', '!', '?'] l.length [] l

/-- Clause boundaries: after a comma or semicolon. -/
def clauseSplitL (l : List Char) : List (List Char) :=
  splitAfterAux [',', ';'] l.length [] l

/-- The greedy regrouping loop shared by the sentence and the clause branch
of _split_long_bullet: each piece is stripped; it joins the current group
when the accumulated character count (separators not counted) stays within
cap and the group is nonempty, otherwise it starts a new group.  The source
joins a group into one string the moment it is closed; here the groups are
returned as lists and joined by the caller, which is the same thing. -/
def groupGreedy (cap : Nat) : Nat → List (List Char) → List (List Char) → List (List (List Char))
  | _, cur, [] => if cur = [] then [] else [cur]
  | curLen, cur, s :: rest =>
    let s2 := pyStrip s
    if curLen + s2.length ≤ cap ∧ cur ≠ [] then
      groupGreedy cap (curLen + s2.length) (cur ++ [s2]) rest
    else
      if cur = [] then groupGreedy cap s2.length [s2] rest
      else cur :: groupGreedy cap s2.length [s2] rest

/-- Python str.join of a list of parts with separator sep. -/
def joinWithL (sep : List Char) : List (List Char) → List Char
  | [] => []
  | x :: xs => if xs = [] then x else x ++ sep ++ joinWithL sep xs

/-- Embeds _split_long_bullet: keep cleaned text at most 250 characters
intact; otherwise regroup sentences greedily at cap 200 joined by a space;
otherwise, above 300 characters, regroup clauses greedily at cap 180 joined
by a comma and a space; otherwise return the text whole. -/
def splitLongBulletL (l : List Char) : List (List Char) :=
  if l = [] then [l]
  else
    let t := cleanTextL l
    if t.length ≤ 250 then [t]
    else
      let sentences := sentenceSplitL t
      if 1 < sentences.length then
        ((groupGreedy 200 0 [] sentences).map (joinWithL [' '])).filter
          (fun s => pyStrip s ≠ [])
      else if 300 < t.length then
        let clauses := clauseSplitL t
        if 1 < clauses.length then
          ((groupGreedy 180 0 [] clauses).map (joinWithL [',', ' '])).filter
            (fun s => pyStrip s ≠ [])
        else [t]
      else [t]

def splitLongBullet (s : String) : List String :=
  (splitLongBulletL s.toList).map String.mk

/-! ## Title truncation (emotion.py) -/

/-- The greedy word-accumulation loop of _truncate_title: words are taken
while the length of the accumulator, a joining space and the word stays
within MAX_TITLE_LENGTH - 3; the loop breaks at the first word that does
not fit. -/
def greedyWords : List Char → List (List Char) → List Char
  | acc, [] => acc
  | acc, w :: ws =>
    if acc.length + 1 + w.length ≤ MAX_TITLE_LENGTH - 3 then
      greedyWords (if acc = [] then w else acc ++ ' ' :: w) ws
    else acc

/-- Embeds _truncate_title: clean; return short titles unchanged; otherwise
accumulate whole words greedily and append an ellipsis, falling back to a
hard cut only when the accumulated words equal the whole title. -/
def truncateTitleL (l : List Char) : List Char :=
  let t := cleanTextL l
  if t.length ≤ MAX_TITLE_LENGTH then t
  else
    let tr := greedyWords [] (pySplitWs t)
    if tr ≠ t then tr ++ ("...").toList
    else t.take (MAX_TITLE_LENGTH - 3) ++ ("...").toList

def truncateTitle (s : String) : String := String.mk (truncateTitleL s.toList)

/-! ## Content Distributor (emotion.py) -/

/-- The processing loop of _distribute_content: clean each bullet, drop
empties, expand the ones the estimator flags through the splitter. -/
def processedContent : List String → List String
  | [] => []
  | p :: ps =>
    (let c := cleanText p
     if c = "" then []
     else if estimateTextLengthL (cleanText p).toList then splitLongBullet c
     else [c]) ++ processedContent ps

/-- The per-slide bullet budget of _distribute_content.  max_slides is an
optional Python int; the budget formula uses Python floor division, which
on a nonnegative numerator and positive denominator is Int.fdiv. -/
def pointsPerSlide (total : Nat) (maxSlides : Option Int) : Nat :=
  match maxSlides with
  | some m =>
    if 0 < m then
      max 1 (min MAX_BULLETS_PER_SLIDE (((total : Int) + m - 1).fdiv m).toNat)
    else MAX_BULLETS_PER_SLIDE
  | none => MAX_BULLETS_PER_SLIDE

/-- Consecutive chunks of size k (the slicing loop of _distribute_content);
fuel-driven, with fuel at least the list length and k positive it yields
the usual chunking. -/
def chunkList (k : Nat) : Nat → List String → List (List String)
  | _, [] => []
  | 0, l => [l]
  | fuel + 1, x :: l2 => (x :: l2).take k :: chunkList k fuel ((x :: l2).drop k)

/-- The continuation title: a Part i/n suffix is added exactly when the
processed bullets exceed one slide. -/
def partTitle (title : String) (total pps idx : Nat) : String :=
  if pps < total then
    title ++ " (Part " ++ toString (idx + 1) ++ "/" ++ toString ((total + pps - 1) / pps) ++ ")"
  else title

/-- Embeds _distribute_content. -/
def distributeContent (title : String) (content : List String) (maxSlides : Option Int) :
    List (String × List String) :=
  if content = [] then [(title, [])]
  else
    let processed := processedContent content
    if processed = [] then [(title, [])]
    else
      let pps := pointsPerSlide processed.length maxSlides
      (chunkList pps processed.length processed).enum.map
        (fun ic => (partTitle title processed.length pps ic.1, ic.2))

/-! ## Topic Deduplicator (maincont.py)

normalize_for_comparison, are_similar and the filtered_topics loop. -/

/-- Embeds normalize_for_comparison: lowercase, remove every character that
is neither a word character nor whitespace, collapse whitespace and strip.
Word characters are modelled as ASCII alphanumerics plus underscore (the
ASCII fragment of the regex class backslash-w), and lowercasing as ASCII
lowercasing. -/
def normalizeForComparisonL (l : List Char) : List Char :=
  normalizeWhitespaceL
    ((l.map Char.toLower).filter (fun c => c.isAlphanum || c = '_' || pyIsSpace c))

/-- The token set of a topic: the set of whitespace-separated words of its
normalized form (Python builds set(str.split())). -/
def tokenSet (s : String) : Finset String :=
  ((pySplitWs (normalizeForComparisonL s.toList)).map String.mk).toFinset

/-- Embeds are_similar with threshold 0.7: false when either token set is
empty, otherwise intersection over union at least 0.7.  The Python float
comparison is modelled exactly as the rational inequality
10 * card(intersection) >= 7 * card(union), which agrees with the float
computation for every set size the quotient of small integers can reach. -/
def areSimilar (t1 t2 : String) : Bool :=
  let w1 := tokenSet t1
  let w2 := tokenSet t2
  if w1 = ∅ ∨ w2 = ∅ then false
  else decide (7 * (w1 ∪ w2).card ≤ 10 * (w1 ∩ w2).card)

/-- The filtered_topics loop: keep a topic when its normalized form is
longer than five characters and it is similar to no topic kept so far. -/
def dedupeAux : List String → List String → List String
  | kept, [] => kept
  | kept, t :: ts =>
    if 5 < (normalizeForComparisonL t.toList).length ∧
        kept.any (fun e => areSimilar t e) = false then
      dedupeAux (kept ++ [t]) ts
    else dedupeAux kept ts

def dedupeTopics (ts : List String) : List String := dedupeAux [] ts

/-! ## Specification-side definitions and concrete inputs -/

/-- The per-slide budget exactly as the specification words it: when
max_slides is given and positive, the ceiling of total over max_slides,
clamped between 1 and MAX_BULLETS_PER_SLIDE; otherwise the constant. -/
def specPointsPerSlide (total : Nat) (maxSlides : Option Int) : Nat :=
  match maxSlides with
  | some m =>
    if 0 < m then max 1 (min MAX_BULLETS_PER_SLIDE (total ⌈/⌉ m.toNat))
    else MAX_BULLETS_PER_SLIDE
  | none => MAX_BULLETS_PER_SLIDE

/-- A character list containing at least one non-whitespace character. -/
def hasNS (l : List Char) : Prop := ∃ c ∈ l, pyIsSpace c = false

/-- Total character count of a list of parts. -/
def sumLens (L : List (List Char)) : Nat := (L.map List.length).sum

/-- Three sentences of lengths 100, 100 and 60; total cleaned length 262.
The first two sentences are greedily grouped (100 + 100 = 200 within the
cap) but the joining space pushes the first chunk to 201 characters. -/
def sentenceOverflowInput : List Char :=
  List.replicate 99 'a' ++ ['.', ' '] ++ List.replicate 99 'b' ++ ['.', ' '] ++
    List.replicate 59 'c' ++ ['.']

/-- A run of 150 one-character clauses and a final letter, cleaned length 301: the
clause branch regroups them into one group (151 characters of content) and
rejoins with a two-character separator, producing a 451-character chunk. -/
def clauseOverflowInput : List Char :=
  (List.replicate 150 ([',', ' '])).flatten ++ ['x']

/-! ## Basic lemmas about the string wrappers and scanners -/

theorem string_mk_length (l : List Char) : (String.mk l).length = l.length := rfl

theorem string_mk_eq_empty_iff (l : List Char) : String.mk l = "" ↔ l = [] := by
  constructor
  · intro h
    exact congrArg String.data h
  · intro h
    rw [h]

theorem string_toList_length (s : String) : s.toList.length = s.length := rfl

theorem toList_mk (l : List Char) : (String.mk l).toList = l := rfl

theorem isPrefixOf_exists {pat l : List Char} (h : pat.isPrefixOf l = true) :
    ∃ t, l = pat ++ t := by
  have hiff := @List.isPrefixOf_iff_prefix Char _ _ pat l
  rw [hiff] at h
  obtain ⟨t, ht⟩ := h
  exact ⟨t, ht.symm⟩

theorem isPrefixOf_length_le {pat l : List Char} (h : pat.isPrefixOf l = true) :
    pat.length ≤ l.length := by
  obtain ⟨t, rfl⟩ := isPrefixOf_exists h
  simp

theorem splitOnFirst_eq {pat : List Char} :
    ∀ {l a b : List Char}, splitOnFirst pat l = some (a, b) → l = a ++ pat ++ b := by
  intro l
  induction l with
  | nil => intro a b h; simp [splitOnFirst] at h
  | cons c rest ih =>
    intro a b h
    rw [splitOnFirst] at h
    by_cases hp : pat.isPrefixOf (c :: rest) = true
    · rw [if_pos hp] at h
      obtain ⟨t, ht⟩ := isPrefixOf_exists hp
      rw [Option.some.injEq, Prod.mk.injEq] at h
      obtain ⟨ha, hb⟩ := h
      subst ha
      rw [ht, List.drop_left] at hb
      subst hb
      simp [ht]
    · rw [if_neg hp] at h
      cases hsp : splitOnFirst pat rest with
      | none => rw [hsp] at h; simp at h
      | some ab =>
        obtain ⟨a1, b1⟩ := ab
        rw [hsp] at h
        rw [Option.some.injEq, Prod.mk.injEq] at h
        obtain ⟨ha, hb⟩ := h
        subst ha
        subst hb
        simp [ih hsp]

theorem splitOnFirst_length {pat l a b : List Char} (h : splitOnFirst pat l = some (a, b)) :
    a.length + pat.length + b.length = l.length := by
  rw [splitOnFirst_eq h]
  simp
  omega

theorem dropWhile_head_false {p : Char → Bool} :
    ∀ {l : List Char} {c : Char} {cs : List Char}, l.dropWhile p = c :: cs → p c = false := by
  intro l
  induction l with
  | nil => intro c cs h; simp [List.dropWhile] at h
  | cons a as ih =>
    intro c cs h
    rw [List.dropWhile_cons] at h
    by_cases hp : p a = true
    · rw [if_pos hp] at h
      exact ih h
    · rw [if_neg hp] at h
      rw [List.cons.injEq] at h
      rw [← h.1]
      exact Bool.eq_false_iff.mpr hp

theorem mem_dropWhile_of_not {p : Char → Bool} {c : Char} :
    ∀ {l : List Char}, c ∈ l → p c = false → c ∈ l.dropWhile p := by
  intro l
  induction l with
  | nil => intro h; simp at h
  | cons a as ih =>
    intro hm hc
    rw [List.dropWhile_cons]
    by_cases hp : p a = true
    · rw [if_pos hp]
      rcases List.mem_cons.mp hm with h1 | h2
      · subst h1; rw [hp] at hc; simp at hc
      · exact ih h2 hc
    · rw [if_neg hp]
      exact hm

theorem mem_pyStrip_of_not {c : Char} {l : List Char} (hm : c ∈ l)
    (hc : pyIsSpace c = false) : c ∈ pyStrip l := by
  unfold pyStrip dropTrailingWs dropLeadingWs
  have h1 : c ∈ l.dropWhile pyIsSpace := mem_dropWhile_of_not hm hc
  have h2 : c ∈ (l.dropWhile pyIsSpace).reverse := List.mem_reverse.mpr h1
  have h3 := mem_dropWhile_of_not h2 hc
  exact List.mem_reverse.mpr h3

theorem pyStrip_nil : pyStrip [] = [] := rfl

theorem pyStrip_ne_nil_of_hasNS {l : List Char} (h : hasNS l) : pyStrip l ≠ [] := by
  obtain ⟨c, hm, hc⟩ := h
  intro hcon
  have := mem_pyStrip_of_not hm hc
  rw [hcon] at this
  simp at this

/-! ## The cleaning pipeline never lengthens its input -/

theorem collapseWs_length : ∀ (l : List Char) (b : Bool), (collapseWs b l).length ≤ l.length := by
  intro l
  induction l with
  | nil => intro b; simp [collapseWs]
  | cons c rest ih =>
    intro b
    rw [collapseWs]
    by_cases hc : pyIsSpace c = true
    · rw [if_pos hc]
      cases b with
      | true => simpa using Nat.le_succ_of_le (ih true)
      | false => simpa using ih true
    · rw [if_neg hc]
      simpa using ih false

theorem pyStrip_length (l : List Char) : (pyStrip l).length ≤ l.length := by
  unfold pyStrip dropTrailingWs dropLeadingWs
  have h1 := (List.dropWhile_sublist (l := l) pyIsSpace).length_le
  have h2 := (List.dropWhile_sublist (l := (l.dropWhile pyIsSpace).reverse) pyIsSpace).length_le
  simp only [List.length_reverse] at *
  omega

theorem normalizeWhitespaceL_length (l : List Char) :
    (normalizeWhitespaceL l).length ≤ l.length := by
  unfold normalizeWhitespaceL
  exact (pyStrip_length _).trans (collapseWs_length l false)

theorem subEscape_length (cs : List Char) : ∀ l, (subEscape cs l).length ≤ l.length := by
  intro l
  induction l using subEscape.induct cs with
  | case1 => simp [subEscape]
  | case2 => simp [subEscape]
  | case3 c rest hmem ih =>
    rw [subEscape, if_pos rfl]
    rw [if_pos hmem]
    simp only [List.length_cons] at *
    omega
  | case4 c rest hmem ih =>
    rw [subEscape, if_pos rfl]
    rw [if_neg hmem]
    simp only [List.length_cons] at *
    omega
  | case5 c rest hc ih =>
    rw [subEscape.eq_def]
    dsimp only
    rw [if_neg hc]
    simp only [List.length_cons] at *
    omega

theorem findNamed_length {l : List Char} {ch : Char} {r : List Char}
    (h : findNamed l = some (ch, r)) : r.length ≤ l.length := by
  unfold findNamed at h
  cases hl : namedEntities.filterMap fun pc =>
      if pc.1.isPrefixOf l = true then some (pc.2, l.drop pc.1.length) else none with
  | nil => rw [hl] at h; simp at h
  | cons x xs =>
    rw [hl] at h
    simp only [List.head?_cons, Option.some.injEq] at h
    subst h
    have hmem : (ch, r) ∈ namedEntities.filterMap fun pc =>
        if pc.1.isPrefixOf l = true then some (pc.2, l.drop pc.1.length) else none := by
      rw [hl]
      exact List.mem_cons_self _ _
    rw [List.mem_filterMap] at hmem
    obtain ⟨pc, _, hpc⟩ := hmem
    by_cases hp : pc.1.isPrefixOf l = true
    · rw [if_pos hp] at hpc
      rw [Option.some.injEq, Prod.mk.injEq] at hpc
      rw [← hpc.2]
      simp only [List.length_drop]
      omega
    · rw [if_neg hp] at hpc
      simp at hpc

theorem pyUnescapeAux_length : ∀ (fuel : Nat) (l : List Char),
    (pyUnescapeAux fuel l).length ≤ l.length := by
  intro fuel
  induction fuel with
  | zero =>
    intro l
    cases l with
    | nil => simp [pyUnescapeAux]
    | cons c rest =>
      rw [pyUnescapeAux]
      simp
  | succ n ih =>
    intro l
    cases l with
    | nil => simp [pyUnescapeAux]
    | cons c rest =>
      rw [pyUnescapeAux]
      by_cases hc : c = '&'
      · rw [if_pos hc]
        cases hfind : findNamed rest with
        | some chr =>
          obtain ⟨ch, rest2⟩ := chr
          have h1 := findNamed_length hfind
          have h2 := ih rest2
          simp only [List.length_cons]
          omega
        | none =>
          dsimp only
          by_cases hh : rest.head? = some '#'
          · rw [if_pos hh]
            by_cases hcond : (rest.tail.takeWhile Char.isDigit ≠ [] ∧
                (rest.tail.drop (rest.tail.takeWhile Char.isDigit).length).head? = some ';' ∧
                decVal (rest.tail.takeWhile Char.isDigit) < 0xd800)
            · rw [if_pos hcond]
              have h2 := ih (rest.tail.drop (rest.tail.takeWhile Char.isDigit).length).tail
              have h3 : (rest.tail.drop (rest.tail.takeWhile Char.isDigit).length).tail.length ≤
                  rest.length := by
                simp only [List.length_tail, List.length_drop]
                omega
              simp only [List.length_cons]
              omega
            · rw [if_neg hcond]
              have h2 := ih rest
              simp only [List.length_cons]
              omega
          · rw [if_neg hh]
            have h2 := ih rest
            simp only [List.length_cons]
            omega
      · rw [if_neg hc]
        have h2 := ih rest
        simp only [List.length_cons]
        omega

theorem pyUnescape_length (l : List Char) : (pyUnescape l).length ≤ l.length :=
  pyUnescapeAux_length l.length l

theorem replaceAllAux_length {pat rep : List Char} (hrp : rep.length ≤ pat.length) :
    ∀ (fuel : Nat) (l : List Char), (replaceAllAux pat rep fuel l).length ≤ l.length := by
  intro fuel
  induction fuel with
  | zero =>
    intro l
    cases l with
    | nil => simp [replaceAllAux]
    | cons c rest =>
      rw [replaceAllAux]
      simp
  | succ n ih =>
    intro l
    cases l with
    | nil => simp [replaceAllAux]
    | cons c rest =>
      rw [replaceAllAux]
      by_cases hp : pat.isPrefixOf (c :: rest) = true
      · rw [if_pos hp]
        have h1 := isPrefixOf_length_le hp
        have h2 := ih ((c :: rest).drop pat.length)
        simp only [List.length_append, List.length_drop, List.length_cons] at *
        omega
      · rw [if_neg hp]
        have h2 := ih rest
        simp only [List.length_cons]
        omega

theorem replaceAll_length {pat rep : List Char} (hrp : rep.length ≤ pat.length)
    (l : List Char) : (replaceAll pat rep l).length ≤ l.length :=
  replaceAllAux_length hrp l.length l

theorem foldl_replace_length :
    ∀ (prs : List (List Char × List Char)) (init : List Char),
      (∀ pr ∈ prs, pr.2.length ≤ pr.1.length) →
      (prs.foldl (fun acc pr => replaceAll pr.1 pr.2 acc) init).length ≤ init.length := by
  intro prs
  induction prs with
  | nil => intro init h; simp
  | cons pr prs ih =>
    intro init h
    rw [List.foldl_cons]
    have h1 := replaceAll_length (h pr (List.mem_cons_self _ _)) init
    have h2 := ih (replaceAll pr.1 pr.2 init) (fun q hq => h q (List.mem_cons_of_mem _ hq))
    omega

theorem cleanHtmlEntitiesL_length (l : List Char) :
    (cleanHtmlEntitiesL l).length ≤ l.length := by
  unfold cleanHtmlEntitiesL
  have h1 := foldl_replace_length entityReplacements (pyUnescape l) (by decide)
  have h2 := pyUnescape_length l
  omega

theorem cleanEscapeCharactersL_length (l : List Char) :
    (cleanEscapeCharactersL l).length ≤ l.length := by
  unfold cleanEscapeCharactersL
  have h1 := subEscape_length escPunct l
  have h2 := subEscape_length ['*'] (subEscape escPunct l)
  have h3 := subEscape_length ['_'] (subEscape ['*'] (subEscape escPunct l))
  have h4 := subEscape_length ['-'] (subEscape ['_'] (subEscape ['*'] (subEscape escPunct l)))
  have h5 := subEscape_length [Char.ofNat 34]
    (subEscape ['-'] (subEscape ['_'] (subEscape ['*'] (subEscape escPunct l))))
  have h6 := subEscape_length [Char.ofNat 39] (subEscape [Char.ofNat 34]
    (subEscape ['-'] (subEscape ['_'] (subEscape ['*'] (subEscape escPunct l)))))
  omega

theorem spanUnwrapAux_length : ∀ (fuel : Nat) (l : List Char),
    (spanUnwrapAux fuel l).length ≤ l.length := by
  intro fuel
  induction fuel with
  | zero =>
    intro l
    cases l with
    | nil => simp [spanUnwrapAux]
    | cons c rest =>
      rw [spanUnwrapAux]
      simp
  | succ n ih =>
    intro l
    cases l with
    | nil => simp [spanUnwrapAux]
    | cons c rest =>
      rw [spanUnwrapAux]
      by_cases hc : (c = '<' ∧ ("span").toList.isPrefixOf rest = true)
      · rw [if_pos hc]
        cases hs1 : splitOnFirst ['>'] (rest.drop 4) with
        | none =>
          dsimp only
          have h2 := ih rest
          simp only [List.length_cons]
          omega
        | some gb =>
          obtain ⟨g, afterGt⟩ := gb
          dsimp only
          cases hs2 : splitOnFirst (("</span>").toList) afterGt with
          | none =>
            dsimp only
            have h2 := ih rest
            simp only [List.length_cons]
            omega
          | some cb =>
            obtain ⟨content, afterClose⟩ := cb
            dsimp only
            have e1 := splitOnFirst_length hs1
            have e2 := splitOnFirst_length hs2
            have h2 := ih afterClose
            have e3 : (("</span>").toList).length = 7 := rfl
            have e4 : (['>'] : List Char).length = 1 := rfl
            rw [e3] at e2
            rw [e4] at e1
            simp only [List.length_drop] at e1
            simp only [List.length_append, List.length_cons]
            omega
      · rw [if_neg hc]
        have h2 := ih rest
        simp only [List.length_cons]
        omega

theorem namedTagAux_length : ∀ (fuel : Nat) (l : List Char),
    (namedTagAux fuel l).length ≤ l.length := by
  intro fuel
  induction fuel with
  | zero =>
    intro l
    cases l with
    | nil => simp [namedTagAux]
    | cons c rest =>
      rw [namedTagAux]
      simp
  | succ n ih =>
    intro l
    cases l with
    | nil => simp [namedTagAux]
    | cons c rest =>
      rw [namedTagAux]
      by_cases hc : c = '<'
      · rw [if_pos hc]
        dsimp only
        by_cases ht : tagNames.any
            (fun m => m.isPrefixOf (if rest.head? = some '/' then rest.tail else rest)) = true
        · rw [if_pos ht]
          cases hs : splitOnFirst ['>'] (if rest.head? = some '/' then rest.tail else rest) with
          | none =>
            dsimp only
            have h2 := ih rest
            simp only [List.length_cons]
            omega
          | some gb =>
            obtain ⟨g, afterGt⟩ := gb
            dsimp only
            have e1 := splitOnFirst_length hs
            have h2 := ih afterGt
            have hbody : (if rest.head? = some '/' then rest.tail else rest).length ≤
                rest.length := by
              by_cases hh : rest.head? = some '/'
              · rw [if_pos hh]
                simp [List.length_tail]
              · rw [if_neg hh]
            simp only [List.length_cons] at *
            omega
        · rw [if_neg ht]
          have h2 := ih rest
          simp only [List.length_cons]
          omega
      · rw [if_neg hc]
        have h2 := ih rest
        simp only [List.length_cons]
        omega

theorem anyTagAux_length : ∀ (fuel : Nat) (l : List Char),
    (anyTagAux fuel l).length ≤ l.length := by
  intro fuel
  induction fuel with
  | zero =>
    intro l
    cases l with
    | nil => simp [anyTagAux]
    | cons c rest =>
      rw [anyTagAux]
      simp
  | succ n ih =>
    intro l
    cases l with
    | nil => simp [anyTagAux]
    | cons c rest =>
      rw [anyTagAux]
      by_cases hc : c = '<'
      · rw [if_pos hc]
        dsimp only
        by_cases hcond : (rest.takeWhile (fun x => x ≠ '>') ≠ [] ∧
            (rest.drop (rest.takeWhile (fun x => x ≠ '>')).length).head? = some '>')
        · rw [if_pos hcond]
          have h2 := ih (rest.drop (rest.takeWhile (fun x => x ≠ '>')).length).tail
          have h3 : (rest.drop (rest.takeWhile (fun x => x ≠ '>')).length).tail.length ≤
              rest.length := by
            simp only [List.length_tail, List.length_drop]
            omega
          simp only [List.length_cons]
          omega
        · rw [if_neg hcond]
          have h2 := ih rest
          simp only [List.length_cons]
          omega
      · rw [if_neg hc]
        have h2 := ih rest
        simp only [List.length_cons]
        omega

theorem removeHtmlTagsL_length (l : List Char) :
    (removeHtmlTagsL l).length ≤ l.length := by
  simp only [removeHtmlTagsL]
  have h1 := spanUnwrapAux_length l.length l
  have h2 := namedTagAux_length (spanUnwrapAux l.length l).length (spanUnwrapAux l.length l)
  have h3 := anyTagAux_length
    (namedTagAux (spanUnwrapAux l.length l).length (spanUnwrapAux l.length l)).length
    (namedTagAux (spanUnwrapAux l.length l).length (spanUnwrapAux l.length l))
  omega

theorem cleanTextL_length (l : List Char) : (cleanTextL l).length ≤ l.length := by
  unfold cleanTextL
  have h1 := cleanHtmlEntitiesL_length l
  have h2 := cleanEscapeCharactersL_length (cleanHtmlEntitiesL l)
  have h3 := removeHtmlTagsL_length (cleanEscapeCharactersL (cleanHtmlEntitiesL l))
  have h4 := normalizeWhitespaceL_length
    (removeHtmlTagsL (cleanEscapeCharactersL (cleanHtmlEntitiesL l)))
  omega

theorem cleanText_length (s : String) : (cleanText s).length ≤ s.length :=
  cleanTextL_length s.toList

/-! ## Cleaning stages are the identity without their trigger characters -/

theorem pyUnescapeAux_id : ∀ (fuel : Nat) (l : List Char), '&' ∉ l →
    pyUnescapeAux fuel l = l := by
  intro fuel
  induction fuel with
  | zero =>
    intro l h
    cases l with
    | nil => simp [pyUnescapeAux]
    | cons c rest =>
      rw [pyUnescapeAux]
      simp
  | succ n ih =>
    intro l h
    cases l with
    | nil => simp [pyUnescapeAux]
    | cons c rest =>
      rw [pyUnescapeAux]
      have hc : ¬ c = '&' := by
        intro hcon
        exact h (hcon ▸ List.mem_cons_self c rest)
      rw [if_neg hc]
      rw [ih rest (fun hm => h (List.mem_cons_of_mem c hm))]

theorem replaceAllAux_id {a : Char} {pat2 rep : List Char} :
    ∀ (fuel : Nat) (l : List Char), a ∉ l →
    replaceAllAux (a :: pat2) rep fuel l = l := by
  intro fuel
  induction fuel with
  | zero =>
    intro l h
    cases l with
    | nil => simp [replaceAllAux]
    | cons c rest =>
      rw [replaceAllAux]
      simp
  | succ n ih =>
    intro l h
    cases l with
    | nil => simp [replaceAllAux]
    | cons c rest =>
      rw [replaceAllAux]
      have hp : ¬ (a :: pat2).isPrefixOf (c :: rest) = true := by
        intro hcon
        obtain ⟨t, ht⟩ := isPrefixOf_exists hcon
        rw [List.cons_append] at ht
        rw [List.cons.injEq] at ht
        exact h (ht.1 ▸ List.mem_cons_self c rest)
      rw [if_neg hp]
      rw [ih rest (fun hm => h (List.mem_cons_of_mem c hm))]

theorem foldl_replace_id {a : Char} :
    ∀ (prs : List (List Char × List Char)) (init : List Char),
      (∀ pr ∈ prs, ∃ p2, pr.1 = a :: p2) → a ∉ init →
      prs.foldl (fun acc pr => replaceAll pr.1 pr.2 acc) init = init := by
  intro prs
  induction prs with
  | nil => intro init hh ha; simp
  | cons pr prs ih =>
    intro init hh ha
    rw [List.foldl_cons]
    obtain ⟨p2, hp2⟩ := hh pr (List.mem_cons_self _ _)
    have hstep : replaceAll pr.1 pr.2 init = init := by
      rw [hp2]
      exact replaceAllAux_id init.length init ha
    rw [hstep]
    exact ih init (fun q hq => hh q (List.mem_cons_of_mem _ hq)) ha

theorem cleanHtmlEntitiesL_id {l : List Char} (h : '&' ∉ l) : cleanHtmlEntitiesL l = l := by
  unfold cleanHtmlEntitiesL
  have h1 : pyUnescape l = l := pyUnescapeAux_id l.length l h
  rw [h1]
  apply foldl_replace_id entityReplacements l _ h
  intro pr hpr
  fin_cases hpr <;> exact ⟨_, rfl⟩

theorem subEscape_id {cs : List Char} : ∀ {l : List Char}, '\\' ∉ l → subEscape cs l = l := by
  intro l
  induction l with
  | nil => intro h; simp [subEscape]
  | cons c rest ih =>
    intro h
    rw [subEscape.eq_def]
    dsimp only
    have hc : ¬ c = '\\' := by
      intro hcon
      exact h (hcon ▸ List.mem_cons_self c rest)
    rw [if_neg hc]
    rw [ih (fun hm => h (List.mem_cons_of_mem c hm))]

theorem cleanEscapeCharactersL_id {l : List Char} (h : '\\' ∉ l) :
    cleanEscapeCharactersL l = l := by
  unfold cleanEscapeCharactersL
  rw [subEscape_id h, subEscape_id h, subEscape_id h, subEscape_id h, subEscape_id h,
    subEscape_id h]

theorem spanUnwrapAux_id : ∀ (fuel : Nat) (l : List Char), '<' ∉ l →
    spanUnwrapAux fuel l = l := by
  intro fuel
  induction fuel with
  | zero =>
    intro l h
    cases l with
    | nil => simp [spanUnwrapAux]
    | cons c rest =>
      rw [spanUnwrapAux]
      simp
  | succ n ih =>
    intro l h
    cases l with
    | nil => simp [spanUnwrapAux]
    | cons c rest =>
      rw [spanUnwrapAux]
      have hc : ¬ (c = '<' ∧ ("span").toList.isPrefixOf rest = true) := by
        intro hcon
        exact h (hcon.1 ▸ List.mem_cons_self c rest)
      rw [if_neg hc]
      rw [ih rest (fun hm => h (List.mem_cons_of_mem c hm))]

theorem namedTagAux_id : ∀ (fuel : Nat) (l : List Char), '<' ∉ l →
    namedTagAux fuel l = l := by
  intro fuel
  induction fuel with
  | zero =>
    intro l h
    cases l with
    | nil => simp [namedTagAux]
    | cons c rest =>
      rw [namedTagAux]
      simp
  | succ n ih =>
    intro l h
    cases l with
    | nil => simp [namedTagAux]
    | cons c rest =>
      rw [namedTagAux]
      have hc : ¬ c = '<' := by
        intro hcon
        exact h (hcon ▸ List.mem_cons_self c rest)
      rw [if_neg hc]
      rw [ih rest (fun hm => h (List.mem_cons_of_mem c hm))]

theorem anyTagAux_id : ∀ (fuel : Nat) (l : List Char), '<' ∉ l →
    anyTagAux fuel l = l := by
  intro fuel
  induction fuel with
  | zero =>
    intro l h
    cases l with
    | nil => simp [anyTagAux]
    | cons c rest =>
      rw [anyTagAux]
      simp
  | succ n ih =>
    intro l h
    cases l with
    | nil => simp [anyTagAux]
    | cons c rest =>
      rw [anyTagAux]
      have hc : ¬ c = '<' := by
        intro hcon
        exact h (hcon ▸ List.mem_cons_self c rest)
      rw [if_neg hc]
      rw [ih rest (fun hm => h (List.mem_cons_of_mem c hm))]

theorem removeHtmlTagsL_id {l : List Char} (h : '<' ∉ l) : removeHtmlTagsL l = l := by
  simp only [removeHtmlTagsL]
  rw [spanUnwrapAux_id l.length l h, namedTagAux_id l.length l h, anyTagAux_id l.length l h]

/-! ## The normalized-whitespace form is a fixed point -/

/-- Adjacent characters of a collapsed string are never both whitespace. -/
def noDoubleSpace (l : List Char) : Prop :=
  List.Chain' (fun a b => ¬ (pyIsSpace a = true ∧ pyIsSpace b = true)) l

theorem collapseWs_space_eq : ∀ (l : List Char) (b : Bool) (c : Char),
    c ∈ collapseWs b l → pyIsSpace c = true → c = ' ' := by
  intro l
  induction l with
  | nil => intro b c hm; simp [collapseWs] at hm
  | cons a rest ih =>
    intro b c hm hsp
    rw [collapseWs] at hm
    by_cases ha : pyIsSpace a = true
    · rw [if_pos ha] at hm
      cases b with
      | true => exact ih true c hm hsp
      | false =>
        simp at hm
        rcases hm with h1 | h2
        · exact h1
        · exact ih true c h2 hsp
    · rw [if_neg ha] at hm
      simp only [List.mem_cons] at hm
      rcases hm with h1 | h2
      · rw [h1] at hsp; exact absurd hsp ha
      · exact ih false c h2 hsp

theorem collapseWs_mem : ∀ (l : List Char) (b : Bool) (c : Char),
    c ∈ collapseWs b l → c ∈ l ∨ c = ' ' := by
  intro l
  induction l with
  | nil => intro b c hm; simp [collapseWs] at hm
  | cons a rest ih =>
    intro b c hm
    rw [collapseWs] at hm
    by_cases ha : pyIsSpace a = true
    · rw [if_pos ha] at hm
      cases b with
      | true =>
        rcases ih true c hm with h1 | h2
        · exact Or.inl (List.mem_cons_of_mem a h1)
        · exact Or.inr h2
      | false =>
        simp at hm
        rcases hm with h1 | h2
        · exact Or.inr h1
        · rcases ih true c h2 with h3 | h4
          · exact Or.inl (List.mem_cons_of_mem a h3)
          · exact Or.inr h4
    · rw [if_neg ha] at hm
      simp only [List.mem_cons] at hm
      rcases hm with h1 | h2
      · exact Or.inl (List.mem_cons.mpr (Or.inl h1))
      · rcases ih false c h2 with h3 | h4
        · exact Or.inl (List.mem_cons_of_mem a h3)
        · exact Or.inr h4

theorem collapseWs_true_head : ∀ (l : List Char) (c : Char),
    (collapseWs true l).head? = some c → pyIsSpace c = false := by
  intro l
  induction l with
  | nil => intro c h; simp [collapseWs] at h
  | cons a rest ih =>
    intro c h
    rw [collapseWs] at h
    by_cases ha : pyIsSpace a = true
    · rw [if_pos ha] at h
      exact ih c h
    · rw [if_neg ha] at h
      simp only [List.head?_cons, Option.some.injEq] at h
      rw [← h]
      exact Bool.eq_false_iff.mpr ha

theorem collapseWs_chain : ∀ (l : List Char) (b : Bool), noDoubleSpace (collapseWs b l) := by
  intro l
  induction l with
  | nil => intro b; simp [collapseWs, noDoubleSpace]
  | cons a rest ih =>
    intro b
    rw [collapseWs]
    by_cases ha : pyIsSpace a = true
    · rw [if_pos ha]
      cases b with
      | true => exact ih true
      | false =>
        rw [if_neg Bool.false_ne_true]
        rw [noDoubleSpace, List.chain'_cons']
        refine ⟨?_, ih true⟩
        intro y hy
        intro hcon
        have := collapseWs_true_head rest y hy
        rw [this] at hcon
        exact absurd hcon.2 (by simp)
    · rw [if_neg ha]
      rw [noDoubleSpace, List.chain'_cons']
      refine ⟨?_, ih false⟩
      intro y hy hcon
      exact absurd hcon.1 ha

theorem dropTrailingWs_append (m : List Char) : ∃ t, m = dropTrailingWs m ++ t := by
  unfold dropTrailingWs
  obtain ⟨t, ht⟩ := List.dropWhile_suffix (l := m.reverse) pyIsSpace
  refine ⟨t.reverse, ?_⟩
  have h2 := congrArg List.reverse ht
  rw [List.reverse_append, List.reverse_reverse] at h2
  exact h2.symm

theorem pyStrip_head_not_space {l : List Char} {c : Char} {cs : List Char}
    (h : pyStrip l = c :: cs) : pyIsSpace c = false := by
  unfold pyStrip at h
  obtain ⟨t, ht⟩ := dropTrailingWs_append (dropLeadingWs l)
  rw [h] at ht
  unfold dropLeadingWs at ht
  rw [List.cons_append] at ht
  exact dropWhile_head_false ht

theorem pyStrip_last_not_space {l : List Char} {c : Char}
    (h : (pyStrip l).getLast? = some c) : pyIsSpace c = false := by
  unfold pyStrip dropTrailingWs at h
  have h2 : ((dropLeadingWs l).reverse.dropWhile pyIsSpace).reverse.getLast? =
      ((dropLeadingWs l).reverse.dropWhile pyIsSpace).head? := by
    have := List.head?_reverse (((dropLeadingWs l).reverse.dropWhile pyIsSpace).reverse)
    rw [List.reverse_reverse] at this
    exact this.symm
  rw [h2] at h
  cases hw : (dropLeadingWs l).reverse.dropWhile pyIsSpace with
  | nil => rw [hw] at h; simp at h
  | cons d ds =>
    rw [hw] at h
    simp only [List.head?_cons, Option.some.injEq] at h
    rw [← h]
    exact dropWhile_head_false hw

theorem mem_pyStrip {c : Char} {l : List Char} (hm : c ∈ pyStrip l) : c ∈ l := by
  unfold pyStrip dropTrailingWs dropLeadingWs at hm
  rw [List.mem_reverse] at hm
  have h1 := (List.dropWhile_sublist pyIsSpace).mem hm
  rw [List.mem_reverse] at h1
  exact (List.dropWhile_sublist pyIsSpace).mem h1

theorem pyStrip_chain {l : List Char} (h : noDoubleSpace l) : noDoubleSpace (pyStrip l) := by
  unfold noDoubleSpace at *
  unfold pyStrip dropTrailingWs dropLeadingWs
  have h1 : List.Chain' (fun a b => ¬ (pyIsSpace a = true ∧ pyIsSpace b = true))
      (l.dropWhile pyIsSpace) := h.suffix (List.dropWhile_suffix pyIsSpace)
  have h2 : List.Chain' (fun a b => ¬ (pyIsSpace a = true ∧ pyIsSpace b = true))
      ((l.dropWhile pyIsSpace).reverse) := by
    rw [List.chain'_reverse]
    apply h1.imp
    intro a b hab hcon
    exact hab ⟨hcon.2, hcon.1⟩
  have h3 := h2.suffix (List.dropWhile_suffix pyIsSpace)
  rw [List.chain'_reverse]
  apply h3.imp
  intro a b hab hcon
  exact hab ⟨hcon.2, hcon.1⟩

theorem dropWhile_id_of_head {p : Char → Bool} :
    ∀ {l : List Char}, (∀ c, l.head? = some c → p c = false) → l.dropWhile p = l := by
  intro l h
  cases l with
  | nil => simp
  | cons c rest =>
    rw [List.dropWhile_cons]
    rw [h c (by simp)]
    simp

theorem pyStrip_id {l : List Char} (hh : ∀ c, l.head? = some c → pyIsSpace c = false)
    (hl : ∀ c, l.getLast? = some c → pyIsSpace c = false) : pyStrip l = l := by
  unfold pyStrip dropTrailingWs dropLeadingWs
  rw [dropWhile_id_of_head hh]
  rw [dropWhile_id_of_head (fun c hc => hl c (by rwa [List.head?_reverse] at hc))]
  exact List.reverse_reverse l

theorem collapseWs_id : ∀ (l : List Char) (b : Bool),
    (∀ c ∈ l, pyIsSpace c = true → c = ' ') → noDoubleSpace l →
    (b = true → ∀ c, l.head? = some c → pyIsSpace c = false) → collapseWs b l = l := by
  intro l
  induction l with
  | nil => intro b hsp hch hb; simp [collapseWs]
  | cons a rest ih =>
    intro b hsp hch hb
    rw [collapseWs]
    by_cases ha : pyIsSpace a = true
    · rw [if_pos ha]
      cases b with
      | true =>
        have := hb rfl a (by simp)
        rw [this] at ha
        simp at ha
      | false =>
        have ha2 : a = ' ' := hsp a (List.mem_cons_self _ _) ha
        rw [noDoubleSpace, List.chain'_cons'] at hch
        have hrest : collapseWs true rest = rest := by
          apply ih true
          · intro c hc hspc
            exact hsp c (List.mem_cons_of_mem a hc) hspc
          · exact hch.2
          · intro _ c hc
            by_contra hcon
            rw [Bool.not_eq_false] at hcon
            exact (hch.1 c hc) ⟨ha, hcon⟩
        rw [if_neg Bool.false_ne_true, hrest, ha2]
    · rw [if_neg ha]
      rw [noDoubleSpace, List.chain'_cons'] at hch
      have hrest : collapseWs false rest = rest := by
        apply ih false
        · intro c hc hspc
          exact hsp c (List.mem_cons_of_mem a hc) hspc
        · exact hch.2
        · intro hcon
          simp at hcon
      rw [hrest]

theorem normalizeWhitespaceL_idem (l : List Char) :
    normalizeWhitespaceL (normalizeWhitespaceL l) = normalizeWhitespaceL l := by
  have hsp : ∀ c ∈ normalizeWhitespaceL l, pyIsSpace c = true → c = ' ' := by
    intro c hc hspc
    exact collapseWs_space_eq l false c (mem_pyStrip hc) hspc
  have hch : noDoubleSpace (normalizeWhitespaceL l) :=
    pyStrip_chain (collapseWs_chain l false)
  have hh : ∀ c, (normalizeWhitespaceL l).head? = some c → pyIsSpace c = false := by
    intro c hc
    cases hy : normalizeWhitespaceL l with
    | nil => rw [hy] at hc; simp at hc
    | cons d ds =>
      rw [hy] at hc
      simp only [List.head?_cons, Option.some.injEq] at hc
      rw [← hc]
      exact pyStrip_head_not_space hy
  have hlast : ∀ c, (normalizeWhitespaceL l).getLast? = some c → pyIsSpace c = false := by
    intro c hc
    exact pyStrip_last_not_space hc
  show pyStrip (collapseWs false (normalizeWhitespaceL l)) = normalizeWhitespaceL l
  rw [collapseWs_id (normalizeWhitespaceL l) false hsp hch (by intro h; simp at h)]
  exact pyStrip_id hh hlast

theorem mem_normalizeWhitespaceL {c : Char} {l : List Char}
    (hm : c ∈ normalizeWhitespaceL l) : c ∈ l ∨ c = ' ' :=
  collapseWs_mem l false c (mem_pyStrip hm)

/-! ## The full pipeline on strings free of special characters -/

theorem cleanTextL_plain {l : List Char} (h1 : '&' ∉ l) (h2 : '\\' ∉ l) (h3 : '<' ∉ l) :
    cleanTextL l = normalizeWhitespaceL l := by
  unfold cleanTextL
  rw [cleanHtmlEntitiesL_id h1, cleanEscapeCharactersL_id h2, removeHtmlTagsL_id h3]

theorem cleanTextL_idem_plain {l : List Char} (h1 : '&' ∉ l) (h2 : '\\' ∉ l)
    (h3 : '<' ∉ l) : cleanTextL (cleanTextL l) = cleanTextL l := by
  rw [cleanTextL_plain h1 h2 h3]
  have m1 : '&' ∉ normalizeWhitespaceL l := by
    intro hm
    rcases mem_normalizeWhitespaceL hm with hx | hx
    · exact h1 hx
    · exact absurd hx (by decide)
  have m2 : '\\' ∉ normalizeWhitespaceL l := by
    intro hm
    rcases mem_normalizeWhitespaceL hm with hx | hx
    · exact h2 hx
    · exact absurd hx (by decide)
  have m3 : '<' ∉ normalizeWhitespaceL l := by
    intro hm
    rcases mem_normalizeWhitespaceL hm with hx | hx
    · exact h3 hx
    · exact absurd hx (by decide)
  rw [cleanTextL_plain m1 m2 m3]
  exact normalizeWhitespaceL_idem l

/-! ## Title truncation bounds -/

theorem greedyWords_length_le : ∀ (ws : List (List Char)) (acc : List Char),
    acc.length ≤ MAX_TITLE_LENGTH - 3 →
    (greedyWords acc ws).length ≤ MAX_TITLE_LENGTH - 3 := by
  intro ws
  induction ws with
  | nil => intro acc h; simpa [greedyWords] using h
  | cons w ws ih =>
    intro acc h
    rw [greedyWords]
    by_cases hc : acc.length + 1 + w.length ≤ MAX_TITLE_LENGTH - 3
    · rw [if_pos hc]
      apply ih
      by_cases hacc : acc = []
      · rw [if_pos hacc]
        omega
      · rw [if_neg hacc]
        simp only [List.length_append, List.length_cons]
        omega
    · rw [if_neg hc]
      exact h

theorem truncateTitleL_length (l : List Char) :
    (truncateTitleL l).length ≤ MAX_TITLE_LENGTH := by
  unfold truncateTitleL
  by_cases h1 : (cleanTextL l).length ≤ MAX_TITLE_LENGTH
  · rw [if_pos h1]
    exact h1
  · rw [if_neg h1]
    have hg := greedyWords_length_le (pySplitWs (cleanTextL l)) [] (by simp [MAX_TITLE_LENGTH])
    by_cases h2 : greedyWords [] (pySplitWs (cleanTextL l)) ≠ cleanTextL l
    · rw [if_pos h2]
      simp only [List.length_append]
      have : (("...").toList).length = 3 := rfl
      rw [this]
      have : MAX_TITLE_LENGTH = 65 := rfl
      omega
    · rw [if_neg h2]
      simp only [List.length_append]
      have h3 : (("...").toList).length = 3 := rfl
      rw [h3]
      have h4 : (List.take (MAX_TITLE_LENGTH - 3) (cleanTextL l)).length ≤
          MAX_TITLE_LENGTH - 3 := by
        simp only [List.length_take]
        omega
      have : MAX_TITLE_LENGTH = 65 := rfl
      omega

theorem greedyWords_ne_of_long {l : List Char} (h : MAX_TITLE_LENGTH < (cleanTextL l).length) :
    greedyWords [] (pySplitWs (cleanTextL l)) ≠ cleanTextL l := by
  intro hcon
  have hg := greedyWords_length_le (pySplitWs (cleanTextL l)) [] (by simp [MAX_TITLE_LENGTH])
  rw [hcon] at hg
  have : MAX_TITLE_LENGTH = 65 := rfl
  omega

/-! ## Distribution: chunking and the bullet budget -/

theorem chunkList_flatten {k : Nat} (hk : 1 ≤ k) :
    ∀ (fuel : Nat) (l : List String), l.length ≤ fuel →
    (chunkList k fuel l).flatten = l := by
  intro fuel
  induction fuel with
  | zero =>
    intro l h
    have : l = [] := List.length_eq_zero.mp (Nat.le_zero.mp h)
    rw [this]
    simp [chunkList]
  | succ n ih =>
    intro l h
    cases l with
    | nil => simp [chunkList]
    | cons x l2 =>
      rw [chunkList]
      rw [List.flatten_cons]
      rw [ih ((x :: l2).drop k) (by simp only [List.length_drop, List.length_cons] at *; omega)]
      exact List.take_append_drop k (x :: l2)

theorem chunkList_mem_length {k : Nat} (hk : 1 ≤ k) :
    ∀ (fuel : Nat) (l : List String) (c : List String), l.length ≤ fuel →
    c ∈ chunkList k fuel l → c.length ≤ k := by
  intro fuel
  induction fuel with
  | zero =>
    intro l c h hm
    have : l = [] := List.length_eq_zero.mp (Nat.le_zero.mp h)
    rw [this] at hm
    simp [chunkList] at hm
  | succ n ih =>
    intro l c h hm
    cases l with
    | nil => simp [chunkList] at hm
    | cons x l2 =>
      rw [chunkList] at hm
      simp only [List.mem_cons] at hm
      rcases hm with h1 | h2
      · rw [h1]
        simp only [List.length_take]
        omega
      · exact ih ((x :: l2).drop k) c
          (by simp only [List.length_drop, List.length_cons] at *; omega) h2

theorem pointsPerSlide_pos (total : Nat) (ms : Option Int) : 1 ≤ pointsPerSlide total ms := by
  cases ms with
  | none => simp only [pointsPerSlide]; decide
  | some m =>
    simp only [pointsPerSlide]
    by_cases hm : 0 < m
    · rw [if_pos hm]
      exact Nat.le_max_left 1 _
    · rw [if_neg hm]
      decide

theorem pointsPerSlide_le (total : Nat) (ms : Option Int) :
    pointsPerSlide total ms ≤ MAX_BULLETS_PER_SLIDE := by
  cases ms with
  | none => simp only [pointsPerSlide]; exact Nat.le_refl _
  | some m =>
    simp only [pointsPerSlide]
    by_cases hm : 0 < m
    · rw [if_pos hm]
      have h1 : min MAX_BULLETS_PER_SLIDE ((((total : Int) + m - 1).fdiv m).toNat) ≤
          MAX_BULLETS_PER_SLIDE := Nat.min_le_left _ _
      have h2 : (1 : Nat) ≤ MAX_BULLETS_PER_SLIDE := by decide
      omega
    · rw [if_neg hm]

theorem fdiv_toNat_eq (a b : Nat) : (((a : Int)).fdiv (b : Int)).toNat = a / b := by
  rw [Int.fdiv_eq_tdiv (by exact_mod_cast Nat.zero_le a) (by exact_mod_cast Nat.zero_le b)]
  rw [← Int.ofNat_tdiv]
  exact Int.toNat_ofNat _

theorem pointsPerSlide_eq_spec (total : Nat) (ms : Option Int) :
    pointsPerSlide total ms = specPointsPerSlide total ms := by
  cases ms with
  | none => rfl
  | some m =>
    simp only [pointsPerSlide, specPointsPerSlide]
    by_cases hm : 0 < m
    · rw [if_pos hm, if_pos hm]
      obtain ⟨mt, rfl⟩ : ∃ mt : Nat, m = (mt : Int) :=
        ⟨m.toNat, (Int.toNat_of_nonneg hm.le).symm⟩
      have hcast : (total : Int) + mt - 1 = ((total + mt - 1 : Nat) : Int) := by
        have hmt1 : 1 ≤ mt := by exact_mod_cast hm
        omega
      rw [hcast, fdiv_toNat_eq, Int.toNat_ofNat, Nat.ceilDiv_eq_add_pred_div]
    · rw [if_neg hm, if_neg hm]

/-! ## Processed bullets are nonempty and distribution preserves them -/

theorem estimate_clean_ne_nil {l : List Char} (h : estimateTextLengthL l = true) :
    cleanTextL l ≠ [] := by
  unfold estimateTextLengthL at h
  by_cases hl : l = []
  · rw [if_pos hl] at h
    simp at h
  · rw [if_neg hl] at h
    rw [Bool.or_eq_true, decide_eq_true_eq, decide_eq_true_eq] at h
    rcases h with h1 | h2
    · intro hcon
      rw [hcon] at h1
      simp [COMPREHENSIVE_TEXT_THRESHOLD] at h1
    · intro hcon
      rw [hcon] at h2
      simp [pySplitWs, pySplitWsAux] at h2

theorem mem_filter_strip_ne {x : List Char} {L : List (List Char)}
    (h : x ∈ L.filter (fun s => pyStrip s ≠ [])) : x ≠ [] := by
  have h2 := (List.mem_filter.mp h).2
  rw [decide_eq_true_eq] at h2
  intro hcon
  rw [hcon] at h2
  exact h2 pyStrip_nil

theorem splitLongBulletL_mem_ne_nil {l : List Char} (h : estimateTextLengthL l = true) :
    ∀ x ∈ splitLongBulletL l, x ≠ [] := by
  intro x hx
  unfold splitLongBulletL at hx
  by_cases hl : l = []
  · unfold estimateTextLengthL at h
    rw [if_pos hl] at h
    simp at h
  · rw [if_neg hl] at hx
    by_cases h250 : (cleanTextL l).length ≤ 250
    · rw [if_pos h250] at hx
      simp only [List.mem_singleton] at hx
      rw [hx]
      exact estimate_clean_ne_nil h
    · rw [if_neg h250] at hx
      by_cases hsen : 1 < (sentenceSplitL (cleanTextL l)).length
      · rw [if_pos hsen] at hx
        exact mem_filter_strip_ne hx
      · rw [if_neg hsen] at hx
        by_cases h300 : 300 < (cleanTextL l).length
        · rw [if_pos h300] at hx
          by_cases hcl : 1 < (clauseSplitL (cleanTextL l)).length
          · rw [if_pos hcl] at hx
            exact mem_filter_strip_ne hx
          · rw [if_neg hcl] at hx
            simp only [List.mem_singleton] at hx
            rw [hx]
            exact estimate_clean_ne_nil h
        · rw [if_neg h300] at hx
          simp only [List.mem_singleton] at hx
          rw [hx]
          exact estimate_clean_ne_nil h

theorem processedContent_mem_ne : ∀ (content : List String), ∀ b ∈ processedContent content,
    b ≠ "" := by
  intro content
  induction content with
  | nil => intro b hb; simp [processedContent] at hb
  | cons p ps ih =>
    intro b hb
    rw [processedContent] at hb
    rw [List.mem_append] at hb
    rcases hb with h1 | h2
    · by_cases hc : cleanText p = ""
      · rw [if_pos hc] at h1
        simp at h1
      · rw [if_neg hc] at h1
        by_cases he : estimateTextLengthL (cleanText p).toList = true
        · rw [if_pos he] at h1
          unfold splitLongBullet at h1
          rw [List.mem_map] at h1
          obtain ⟨x, hx, hbx⟩ := h1
          have hxne := splitLongBulletL_mem_ne_nil he x hx
          rw [← hbx]
          intro hcon
          exact hxne ((string_mk_eq_empty_iff x).mp hcon)
        · rw [if_neg he] at h1
          simp only [List.mem_singleton] at h1
          rw [h1]
          exact hc
    · exact ih b h2

theorem distributeContent_flatten (title : String) (content : List String) (ms : Option Int) :
    ((distributeContent title content ms).map Prod.snd).flatten = processedContent content := by
  unfold distributeContent
  by_cases hc : content = []
  · rw [if_pos hc]
    subst hc
    simp [processedContent]
  · rw [if_neg hc]
    by_cases hp : processedContent content = []
    · rw [if_pos hp]
      rw [hp]
      simp
    · rw [if_neg hp]
      dsimp only
      rw [List.map_map]
      have hmap : ((chunkList (pointsPerSlide (processedContent content).length ms)
          (processedContent content).length (processedContent content)).enum.map
          (Prod.snd ∘ fun ic => (partTitle title (processedContent content).length
            (pointsPerSlide (processedContent content).length ms) ic.1, ic.2))) =
          ((chunkList (pointsPerSlide (processedContent content).length ms)
          (processedContent content).length (processedContent content)).enum.map
          Prod.snd) := by
        apply List.map_congr_left
        intro ic hic
        rfl
      rw [hmap, List.enum_map_snd]
      exact chunkList_flatten (pointsPerSlide_pos _ ms) _ _ (Nat.le_refl _)

theorem distributeContent_bullets_le (title : String) (content : List String)
    (ms : Option Int) :
    ∀ sp ∈ distributeContent title content ms, sp.2.length ≤ MAX_BULLETS_PER_SLIDE := by
  intro sp hsp
  unfold distributeContent at hsp
  by_cases hc : content = []
  · rw [if_pos hc] at hsp
    simp only [List.mem_singleton] at hsp
    rw [hsp]
    simp [MAX_BULLETS_PER_SLIDE]
  · rw [if_neg hc] at hsp
    by_cases hp : processedContent content = []
    · rw [if_pos hp] at hsp
      simp only [List.mem_singleton] at hsp
      rw [hsp]
      simp [MAX_BULLETS_PER_SLIDE]
    · rw [if_neg hp] at hsp
      dsimp only at hsp
      rw [List.mem_map] at hsp
      obtain ⟨ic, hic, hspc⟩ := hsp
      have hmem : ic.2 ∈ chunkList (pointsPerSlide (processedContent content).length ms)
          (processedContent content).length (processedContent content) := by
        have := List.mem_map_of_mem Prod.snd hic
        rwa [List.enum_map_snd] at this
      have hle := chunkList_mem_length (pointsPerSlide_pos _ ms) _ _ _ (Nat.le_refl _) hmem
      rw [← hspc]
      exact hle.trans (pointsPerSlide_le _ ms)

/-! ## Deduplication invariants -/

theorem dedupeAux_append : ∀ (ts kept : List String),
    ∃ us, dedupeAux kept ts = kept ++ us ∧ us.Sublist ts := by
  intro ts
  induction ts with
  | nil => intro kept; exact ⟨[], by simp [dedupeAux]⟩
  | cons t ts ih =>
    intro kept
    rw [dedupeAux]
    by_cases hc : (5 < (normalizeForComparisonL t.toList).length ∧
        kept.any (fun e => areSimilar t e) = false)
    · rw [if_pos hc]
      obtain ⟨us, hus, hsub⟩ := ih (kept ++ [t])
      refine ⟨t :: us, ?_, ?_⟩
      · rw [hus, List.append_assoc]
        rfl
      · exact List.Sublist.cons₂ t hsub
    · rw [if_neg hc]
      obtain ⟨us, hus, hsub⟩ := ih kept
      exact ⟨us, hus, hsub.cons t⟩

theorem dedupeAux_mem_P : ∀ (ts kept : List String),
    (∀ t ∈ kept, 5 < (normalizeForComparisonL t.toList).length) →
    ∀ t ∈ dedupeAux kept ts, 5 < (normalizeForComparisonL t.toList).length := by
  intro ts
  induction ts with
  | nil => intro kept hk t ht; rw [dedupeAux] at ht; exact hk t ht
  | cons t ts ih =>
    intro kept hk u hu
    rw [dedupeAux] at hu
    by_cases hc : (5 < (normalizeForComparisonL t.toList).length ∧
        kept.any (fun e => areSimilar t e) = false)
    · rw [if_pos hc] at hu
      refine ih (kept ++ [t]) ?_ u hu
      intro v hv
      rw [List.mem_append] at hv
      rcases hv with h1 | h2
      · exact hk v h1
      · rw [List.mem_singleton] at h2
        rw [h2]
        exact hc.1
    · rw [if_neg hc] at hu
      exact ih kept hk u hu

theorem dedupeAux_pairwise : ∀ (ts kept : List String),
    List.Pairwise (fun a b => areSimilar b a = false) kept →
    List.Pairwise (fun a b => areSimilar b a = false) (dedupeAux kept ts) := by
  intro ts
  induction ts with
  | nil => intro kept hk; rw [dedupeAux]; exact hk
  | cons t ts ih =>
    intro kept hk
    rw [dedupeAux]
    by_cases hc : (5 < (normalizeForComparisonL t.toList).length ∧
        kept.any (fun e => areSimilar t e) = false)
    · rw [if_pos hc]
      apply ih
      rw [List.pairwise_append]
      refine ⟨hk, List.pairwise_singleton _ _, ?_⟩
      intro a ha b hb
      rw [List.mem_singleton] at hb
      subst hb
      by_cases hsim : areSimilar b a = true
      · exfalso
        have : kept.any (fun e => areSimilar b e) = true := by
          rw [List.any_eq_true]
          exact ⟨a, ha, hsim⟩
        rw [hc.2] at this
        exact absurd this (by simp)
      · exact Bool.not_eq_true _ ▸ Bool.eq_false_iff.mpr hsim
    · rw [if_neg hc]
      exact ih kept hk

theorem pySplitWsAux_ne_nil : ∀ (l cur : List Char), cur ≠ [] → pySplitWsAux cur l ≠ [] := by
  intro l
  induction l with
  | nil =>
    intro cur h
    rw [pySplitWsAux]
    rw [if_neg h]
    simp
  | cons c rest ih =>
    intro cur h
    rw [pySplitWsAux]
    by_cases hc : pyIsSpace c = true
    · rw [if_pos hc, if_neg h]
      simp
    · rw [if_neg hc]
      exact ih (c :: cur) (by simp)

theorem pySplitWs_ne_nil {l : List Char} {c : Char} {cs : List Char} (hl : l = c :: cs)
    (hc : pyIsSpace c = false) : pySplitWs l ≠ [] := by
  subst hl
  unfold pySplitWs
  rw [pySplitWsAux]
  rw [if_neg (by rw [hc]; simp)]
  exact pySplitWsAux_ne_nil cs [c] (by simp)

theorem tokenSet_ne_empty {t : String}
    (h : 5 < (normalizeForComparisonL t.toList).length) : tokenSet t ≠ ∅ := by
  unfold tokenSet
  have hne : normalizeForComparisonL t.toList ≠ [] := by
    intro hcon
    rw [hcon] at h
    simp at h
  cases hn : normalizeForComparisonL t.toList with
  | nil => exact absurd hn hne
  | cons c cs =>
    have hc : pyIsSpace c = false := by
      have : pyStrip (collapseWs false
          (((t.toList.map Char.toLower).filter
            (fun x => x.isAlphanum || x = '_' || pyIsSpace x)))) = c :: cs := hn
      exact pyStrip_head_not_space this
    have hsplit := pySplitWs_ne_nil hn hc
    rw [hn] at hsplit
    intro hcon
    rw [Finset.eq_empty_iff_forall_not_mem] at hcon
    cases hw : pySplitWs (c :: cs) with
    | nil => exact hsplit hw
    | cons w ws =>
      apply hcon (String.mk w)
      rw [List.mem_toFinset, List.mem_map]
      exact ⟨w, by rw [hw]; exact List.mem_cons_self _ _, rfl⟩

theorem areSimilar_false_jaccard {a b : String} (ha : tokenSet a ≠ ∅) (hb : tokenSet b ≠ ∅)
    (h : areSimilar b a = false) :
    10 * ((tokenSet a) ∩ (tokenSet b)).card < 7 * ((tokenSet a) ∪ (tokenSet b)).card := by
  unfold areSimilar at h
  rw [if_neg (by push_neg; exact ⟨hb, ha⟩)] at h
  rw [decide_eq_false_iff_not, Nat.not_le] at h
  rw [Finset.inter_comm, Finset.union_comm] at h
  omega

/-! ## Sentence and clause splitting: length accounting -/

theorem splitAfterAux_sum (punct : List Char) : ∀ (fuel : Nat) (acc l : List Char),
    sumLens (splitAfterAux punct fuel acc l) + (splitAfterAux punct fuel acc l).length ≤
    acc.length + l.length + 1 := by
  intro fuel
  induction fuel with
  | zero =>
    intro acc l
    cases l with
    | nil =>
      rw [splitAfterAux]
      simp [sumLens]
    | cons c rest =>
      have heq : splitAfterAux punct 0 acc (c :: rest) = [acc.reverse ++ (c :: rest)] := by
        rw [splitAfterAux]
        simp
      rw [heq]
      simp only [sumLens, List.map_cons, List.map_nil, List.sum_cons, List.sum_nil,
        List.length_append, List.length_reverse, List.length_cons, List.length_nil]
      omega
  | succ n ih =>
    intro acc l
    cases l with
    | nil =>
      rw [splitAfterAux]
      simp [sumLens]
    | cons c rest =>
      rw [splitAfterAux]
      by_cases hcond : ((decide (c ∈ punct) &&
          (match rest.head? with | some d => pyIsSpace d | none => false)) = true)
      · rw [if_pos hcond]
        rw [Bool.and_eq_true] at hcond
        have hdrop : (rest.dropWhile pyIsSpace).length + 1 ≤ rest.length + 1 := by
          have := (List.dropWhile_sublist (l := rest) pyIsSpace).length_le
          omega
        have hdrop2 : rest ≠ [] → (rest.dropWhile pyIsSpace).length + 1 ≤ rest.length := by
          intro hne
          cases rest with
          | nil => exact absurd rfl hne
          | cons d rest2 =>
            have hd : pyIsSpace d = true := by
              have h2 := hcond.2
              simp only [List.head?_cons] at h2
              exact h2
            rw [List.dropWhile_cons, if_pos hd]
            have := (List.dropWhile_sublist (l := rest2) pyIsSpace).length_le
            simp only [List.length_cons]
            omega
        have hrest_ne : rest ≠ [] := by
          intro hcon
          rw [hcon] at hcond
          simp at hcond
        have hih := ih [] (rest.dropWhile pyIsSpace)
        have hd2 := hdrop2 hrest_ne
        simp only [sumLens, List.map_cons, List.sum_cons, List.length_cons,
          List.length_reverse, List.length_nil] at *
        omega
      · rw [if_neg hcond]
        have hih := ih (c :: acc) rest
        simp only [List.length_cons] at *
        omega

theorem splitAfterAux_count (punct : List Char) (fuel : Nat) (acc l : List Char) :
    (splitAfterAux punct fuel acc l).length ≤ acc.length + l.length + 1 := by
  have := splitAfterAux_sum punct fuel acc l
  omega

/-! ## A non-whitespace character survives splitting, stripping, grouping -/

theorem hasNS_append_iff {a b : List Char} : hasNS (a ++ b) ↔ hasNS a ∨ hasNS b := by
  unfold hasNS
  constructor
  · intro ⟨c, hc, hcs⟩
    rw [List.mem_append] at hc
    rcases hc with h | h
    · exact Or.inl ⟨c, h, hcs⟩
    · exact Or.inr ⟨c, h, hcs⟩
  · intro h
    rcases h with ⟨c, hc, hcs⟩ | ⟨c, hc, hcs⟩
    · exact ⟨c, List.mem_append.mpr (Or.inl hc), hcs⟩
    · exact ⟨c, List.mem_append.mpr (Or.inr hc), hcs⟩

theorem hasNS_reverse {a : List Char} (h : hasNS a) : hasNS a.reverse := by
  obtain ⟨c, hc, hcs⟩ := h
  exact ⟨c, List.mem_reverse.mpr hc, hcs⟩

theorem splitAfterAux_hasNS (punct : List Char) (hp : ∀ c ∈ punct, pyIsSpace c = false) :
    ∀ (fuel : Nat) (acc l : List Char), hasNS (acc ++ l) →
    ∃ p ∈ splitAfterAux punct fuel acc l, hasNS p := by
  intro fuel
  induction fuel with
  | zero =>
    intro acc l h
    cases l with
    | nil =>
      rw [splitAfterAux]
      refine ⟨acc.reverse, List.mem_singleton.mpr rfl, ?_⟩
      rw [List.append_nil] at h
      exact hasNS_reverse h
    | cons c rest =>
      have heq : splitAfterAux punct 0 acc (c :: rest) = [acc.reverse ++ (c :: rest)] := by
        rw [splitAfterAux]
        simp
      rw [heq]
      refine ⟨acc.reverse ++ c :: rest, List.mem_singleton.mpr rfl, ?_⟩
      rw [hasNS_append_iff] at h ⊢
      rcases h with h | h
      · exact Or.inl (hasNS_reverse h)
      · exact Or.inr h
  | succ n ih =>
    intro acc l h
    cases l with
    | nil =>
      rw [splitAfterAux]
      refine ⟨acc.reverse, List.mem_singleton.mpr rfl, ?_⟩
      rw [List.append_nil] at h
      exact hasNS_reverse h
    | cons c rest =>
      rw [splitAfterAux]
      by_cases hcond : ((decide (c ∈ punct) &&
          (match rest.head? with | some d => pyIsSpace d | none => false)) = true)
      · rw [if_pos hcond]
        rw [Bool.and_eq_true, decide_eq_true_eq] at hcond
        refine ⟨((c :: acc).reverse), List.mem_cons_self _ _, ?_⟩
        exact hasNS_reverse ⟨c, List.mem_cons_self _ _, hp c hcond.1⟩
      · rw [if_neg hcond]
        apply ih (c :: acc) rest
        obtain ⟨d, hd, hds⟩ := h
        refine ⟨d, ?_, hds⟩
        rw [List.mem_append] at hd
        simp only [List.cons_append, List.mem_cons, List.mem_append] at *
        tauto

/-! ## Greedy regrouping -/

theorem groupGreedy_flatten (cap : Nat) : ∀ (l : List (List Char)) (curLen : Nat)
    (cur : List (List Char)),
    (groupGreedy cap curLen cur l).flatten = cur ++ l.map pyStrip := by
  intro l
  induction l with
  | nil =>
    intro curLen cur
    rw [groupGreedy]
    by_cases hc : cur = []
    · rw [if_pos hc, hc]
      simp
    · rw [if_neg hc]
      simp
  | cons s rest ih =>
    intro curLen cur
    rw [groupGreedy]
    by_cases hc : (curLen + (pyStrip s).length ≤ cap ∧ cur ≠ [])
    · rw [if_pos hc]
      rw [ih]
      simp
    · rw [if_neg hc]
      by_cases hcur : cur = []
      · rw [if_pos hcur, hcur, ih]
        simp
      · rw [if_neg hcur]
        rw [List.flatten_cons, ih]
        simp

theorem groupGreedy_ne_nil (cap : Nat) : ∀ (l : List (List Char)) (curLen : Nat)
    (cur : List (List Char)), cur ≠ [] → ∀ g ∈ groupGreedy cap curLen cur l, g ≠ [] := by
  intro l
  induction l with
  | nil =>
    intro curLen cur hcur g hg
    rw [groupGreedy, if_neg hcur] at hg
    rw [List.mem_singleton] at hg
    rw [hg]
    exact hcur
  | cons s rest ih =>
    intro curLen cur hcur g hg
    rw [groupGreedy] at hg
    by_cases hc : (curLen + (pyStrip s).length ≤ cap ∧ cur ≠ [])
    · rw [if_pos hc] at hg
      exact ih _ (cur ++ [pyStrip s]) (by simp) g hg
    · rw [if_neg hc, if_neg hcur] at hg
      rw [List.mem_cons] at hg
      rcases hg with h1 | h2
      · rw [h1]; exact hcur
      · exact ih _ [pyStrip s] (by simp) g h2

theorem groupGreedy_ne_nil_start (cap : Nat) (l : List (List Char)) :
    ∀ g ∈ groupGreedy cap 0 [] l, g ≠ [] := by
  cases l with
  | nil =>
    intro g hg
    rw [groupGreedy] at hg
    rw [if_pos rfl] at hg
    simp at hg
  | cons s rest =>
    intro g hg
    rw [groupGreedy] at hg
    rw [if_neg (by simp)] at hg
    rw [if_pos rfl] at hg
    exact groupGreedy_ne_nil cap rest _ [pyStrip s] (by simp) g hg

theorem groupGreedy_cap (cap : Nat) : ∀ (l : List (List Char)) (curLen : Nat)
    (cur : List (List Char)), curLen = sumLens cur →
    (2 ≤ cur.length → sumLens cur ≤ cap) →
    ∀ g ∈ groupGreedy cap curLen cur l, 2 ≤ g.length → sumLens g ≤ cap := by
  intro l
  induction l with
  | nil =>
    intro curLen cur hlen hcap g hg
    rw [groupGreedy] at hg
    by_cases hc : cur = []
    · rw [if_pos hc] at hg
      simp at hg
    · rw [if_neg hc] at hg
      rw [List.mem_singleton] at hg
      rw [hg]
      exact hcap
  | cons s rest ih =>
    intro curLen cur hlen hcap g hg
    rw [groupGreedy] at hg
    by_cases hc : (curLen + (pyStrip s).length ≤ cap ∧ cur ≠ [])
    · rw [if_pos hc] at hg
      refine ih _ (cur ++ [pyStrip s]) ?_ ?_ g hg
      · rw [hlen]
        simp [sumLens]
      · intro _
        have hs : sumLens (cur ++ [pyStrip s]) = sumLens cur + (pyStrip s).length := by
          simp [sumLens]
        rw [hs, ← hlen]
        exact hc.1
    · rw [if_neg hc] at hg
      by_cases hcur : cur = []
      · rw [if_pos hcur] at hg
        refine ih _ [pyStrip s] (by simp [sumLens]) ?_ g hg
        intro hcon
        simp at hcon
      · rw [if_neg hcur] at hg
        rw [List.mem_cons] at hg
        rcases hg with h1 | h2
        · rw [h1]
          exact hcap
        · refine ih _ [pyStrip s] (by simp [sumLens]) ?_ g h2
          intro hcon
          simp at hcon

/-! ## Joining groups -/

theorem joinWithL_length (sep : List Char) : ∀ (g : List (List Char)), g ≠ [] →
    (joinWithL sep g).length + sep.length = sumLens g + sep.length * g.length := by
  intro g
  induction g with
  | nil => intro h; exact absurd rfl h
  | cons x xs ih =>
    intro _
    rw [joinWithL]
    by_cases hxs : xs = []
    · rw [if_pos hxs, hxs]
      simp [sumLens]
    · rw [if_neg hxs]
      have := ih hxs
      simp only [sumLens, List.map_cons, List.sum_cons, List.length_append,
        List.length_cons] at *
      rw [Nat.mul_add, Nat.mul_one]
      omega

theorem joinWithL_mem {c : Char} {x : List Char} : ∀ {g : List (List Char)} (sep : List Char),
    x ∈ g → c ∈ x → c ∈ joinWithL sep g := by
  intro g
  induction g with
  | nil => intro sep h; simp at h
  | cons y ys ih =>
    intro sep hx hc
    rw [joinWithL]
    by_cases hys : ys = []
    · rw [if_pos hys]
      rw [hys] at hx
      simp only [List.mem_singleton] at hx
      rw [← hx]
      exact hc
    · rw [if_neg hys]
      rw [List.mem_cons] at hx
      rcases hx with h1 | h2
      · rw [List.mem_append, List.mem_append]
        exact Or.inl (Or.inl (h1 ▸ hc))
      · rw [List.mem_append]
        exact Or.inr (ih sep h2 hc)

theorem sumLens_flatten : ∀ (G : List (List (List Char))),
    sumLens G.flatten = (G.map sumLens).sum := by
  intro G
  induction G with
  | nil => simp [sumLens]
  | cons g gs ih =>
    rw [List.flatten_cons]
    simp only [sumLens, List.map_append, List.sum_append, List.map_cons, List.sum_cons] at *
    rw [ih]

theorem sumLens_mem_le {g : List (List Char)} {G : List (List (List Char))} (h : g ∈ G) :
    sumLens g ≤ sumLens G.flatten := by
  rw [sumLens_flatten]
  exact List.le_sum_of_mem (List.mem_map_of_mem sumLens h)

theorem length_mem_le {g : List (List Char)} {G : List (List (List Char))} (h : g ∈ G) :
    g.length ≤ G.flatten.length := by
  rw [List.length_flatten]
  exact List.le_sum_of_mem (List.mem_map_of_mem List.length h)

theorem sumLens_map_strip_le (parts : List (List Char)) :
    sumLens (parts.map pyStrip) ≤ sumLens parts := by
  unfold sumLens
  rw [List.map_map]
  exact List.sum_le_sum (fun p _ => pyStrip_length p)

/-! ## The splitter: output nonempty, chunks bounded -/

theorem hasNS_pyStrip {p : List Char} (h : hasNS p) : hasNS (pyStrip p) := by
  obtain ⟨c, hc, hcs⟩ := h
  exact ⟨c, mem_pyStrip_of_not hc hcs, hcs⟩

theorem grouped_filter_ne_nil (punct : List Char) (hp : ∀ c ∈ punct, pyIsSpace c = false)
    (cap : Nat) (sep : List Char) {t : List Char} (ht : hasNS t) :
    ((groupGreedy cap 0 [] (splitAfterAux punct t.length [] t)).map (joinWithL sep)).filter
      (fun x => pyStrip x ≠ []) ≠ [] := by
  obtain ⟨p, hpmem, hpns⟩ := splitAfterAux_hasNS punct hp t.length [] t (by simpa using ht)
  have hstrip : pyStrip p ∈ (splitAfterAux punct t.length [] t).map pyStrip :=
    List.mem_map_of_mem pyStrip hpmem
  have hflat : (groupGreedy cap 0 [] (splitAfterAux punct t.length [] t)).flatten =
      (splitAfterAux punct t.length [] t).map pyStrip := by
    rw [groupGreedy_flatten]
    simp
  rw [← hflat] at hstrip
  rw [List.mem_flatten] at hstrip
  obtain ⟨g, hgmem, hpg⟩ := hstrip
  have hjoin : hasNS (joinWithL sep g) := by
    obtain ⟨c, hc, hcs⟩ := hasNS_pyStrip hpns
    exact ⟨c, joinWithL_mem sep hpg hc, hcs⟩
  have hkeep : joinWithL sep g ∈
      ((groupGreedy cap 0 [] (splitAfterAux punct t.length [] t)).map (joinWithL sep)).filter
        (fun x => pyStrip x ≠ []) := by
    rw [List.mem_filter]
    refine ⟨List.mem_map_of_mem (joinWithL sep) hgmem, ?_⟩
    rw [decide_eq_true_eq]
    exact pyStrip_ne_nil_of_hasNS hjoin
  exact List.ne_nil_of_mem hkeep

theorem grouped_chunk_le (punct : List Char) (cap : Nat) (sep : List Char)
    (hS : sep.length = 1 ∨ sep.length = 2) (t : List Char) :
    ∀ x ∈ (groupGreedy cap 0 [] (splitAfterAux punct t.length [] t)).map (joinWithL sep),
      x.length ≤ sep.length * t.length := by
  intro x hx
  rw [List.mem_map] at hx
  obtain ⟨g, hgmem, hgx⟩ := hx
  have hgne : g ≠ [] := groupGreedy_ne_nil_start cap _ g hgmem
  have e1 := joinWithL_length sep g hgne
  have hflat : (groupGreedy cap 0 [] (splitAfterAux punct t.length [] t)).flatten =
      (splitAfterAux punct t.length [] t).map pyStrip := by
    rw [groupGreedy_flatten]
    simp
  have e2 : sumLens g ≤ sumLens ((splitAfterAux punct t.length [] t).map pyStrip) := by
    rw [← hflat]
    exact sumLens_mem_le hgmem
  have e3 : g.length ≤ ((splitAfterAux punct t.length [] t).map pyStrip).length := by
    rw [← hflat]
    exact length_mem_le hgmem
  have e4 := sumLens_map_strip_le (splitAfterAux punct t.length [] t)
  have e5 : ((splitAfterAux punct t.length [] t).map pyStrip).length =
      (splitAfterAux punct t.length [] t).length := List.length_map _ _
  have e6 := splitAfterAux_sum punct t.length [] t
  simp only [List.length_nil, Nat.zero_add] at e6
  rw [← hgx]
  rcases hS with h1 | h1
  · rw [h1] at e1 ⊢
    omega
  · rw [h1] at e1 ⊢
    omega

theorem cleanTextL_nil : cleanTextL [] = [] := rfl

theorem cleanTextL_hasNS {l : List Char} (h : cleanTextL l ≠ []) : hasNS (cleanTextL l) := by
  cases hc : cleanTextL l with
  | nil => exact absurd hc h
  | cons c cs =>
    have hcns : pyIsSpace c = false := pyStrip_head_not_space hc
    exact ⟨c, List.mem_cons_self _ _, hcns⟩

theorem splitLongBulletL_ne_nil (l : List Char) : splitLongBulletL l ≠ [] := by
  unfold splitLongBulletL
  by_cases hl : l = []
  · rw [if_pos hl]
    simp
  · rw [if_neg hl]
    by_cases h250 : (cleanTextL l).length ≤ 250
    · rw [if_pos h250]
      simp
    · rw [if_neg h250]
      have htne : cleanTextL l ≠ [] := by
        intro hcon
        rw [hcon] at h250
        simp at h250
      have hns := cleanTextL_hasNS htne
      by_cases hsen : 1 < (sentenceSplitL (cleanTextL l)).length
      · rw [if_pos hsen]
        exact grouped_filter_ne_nil ['.', '!', '?'] (by decide) 200 [' '] hns
      · rw [if_neg hsen]
        by_cases h300 : 300 < (cleanTextL l).length
        · rw [if_pos h300]
          by_cases hcl : 1 < (clauseSplitL (cleanTextL l)).length
          · rw [if_pos hcl]
            exact grouped_filter_ne_nil [',', ';'] (by decide) 180 [',', ' '] hns
          · rw [if_neg hcl]
            simp
        · rw [if_neg h300]
          simp

theorem splitLongBulletL_le (l : List Char) :
    ∀ x ∈ splitLongBulletL l, x.length ≤ 2 * l.length := by
  intro x hx
  have hclean := cleanTextL_length l
  unfold splitLongBulletL at hx
  by_cases hl : l = []
  · rw [if_pos hl] at hx
    simp only [List.mem_singleton] at hx
    rw [hx, hl]
    simp
  · rw [if_neg hl] at hx
    by_cases h250 : (cleanTextL l).length ≤ 250
    · rw [if_pos h250] at hx
      simp only [List.mem_singleton] at hx
      rw [hx]
      omega
    · rw [if_neg h250] at hx
      by_cases hsen : 1 < (sentenceSplitL (cleanTextL l)).length
      · rw [if_pos hsen] at hx
        have hx2 := (List.mem_filter.mp hx).1
        have := grouped_chunk_le ['.', '!', '?'] 200 [' '] (by decide)
          (cleanTextL l) x hx2
        simp only [List.length_singleton] at this
        omega
      · rw [if_neg hsen] at hx
        by_cases h300 : 300 < (cleanTextL l).length
        · rw [if_pos h300] at hx
          by_cases hcl : 1 < (clauseSplitL (cleanTextL l)).length
          · rw [if_pos hcl] at hx
            have hx2 := (List.mem_filter.mp hx).1
            have := grouped_chunk_le [',', ';'] 180 [',', ' '] (by decide)
              (cleanTextL l) x hx2
            have h2 : ([',', ' '] : List Char).length = 2 := rfl
            rw [h2] at this
            omega
          · rw [if_neg hcl] at hx
            simp only [List.mem_singleton] at hx
            rw [hx]
            omega
        · rw [if_neg h300] at hx
          simp only [List.mem_singleton] at hx
          rw [hx]
          omega

/-! ## Claim theorems

One theorem per claim of the specification review, with a witness when the
theorem carries hypotheses and a counterexample when the claim as written
fails on the code. -/

/-- C1: for every title, bullet list and optional max_slides, the bullets of
the returned SlideSpecs, concatenated in order, are exactly the processed
bullets (cleaned, empties dropped, long ones expanded by the splitter): the
total count is preserved, nothing is duplicated or dropped, and every
processed bullet is nonempty. -/
theorem c1_distribute_preserves_bullets (title : String) (content : List String)
    (maxSlides : Option Int) :
    ((distributeContent title content maxSlides).map Prod.snd).flatten =
      processedContent content ∧
    (((distributeContent title content maxSlides).map Prod.snd).map List.length).sum =
      (processedContent content).length ∧
    (∀ b ∈ processedContent content, b ≠ "") := by
  refine ⟨distributeContent_flatten title content maxSlides, ?_,
    processedContent_mem_ne content⟩
  have h := distributeContent_flatten title content maxSlides
  rw [← h, List.length_flatten]

theorem c1_witness :
    ((distributeContent ("T") (["hello world item"]) none).map Prod.snd).flatten =
      processedContent (["hello world item"]) ∧
    cleanText ("hello world item") ≠ "" :=
  ⟨(c1_distribute_preserves_bullets ("T") (["hello world item"]) none).1,
   (c1_distribute_preserves_bullets ("T") (["hello world item"]) none).2.2
     (cleanText ("hello world item")) (by decide)⟩

/-- C2: no returned SlideSpec holds more than MAX_BULLETS_PER_SLIDE = 5
bullets, and the per-slide budget agrees with the specification formula:
for a given positive max_slides it is
max(1, min(MAX_BULLETS_PER_SLIDE, ceil(total / max_slides))), otherwise the
constant MAX_BULLETS_PER_SLIDE. -/
theorem c2_bullets_per_slide_cap (title : String) (content : List String)
    (maxSlides : Option Int) :
    (∀ sp ∈ distributeContent title content maxSlides,
      sp.2.length ≤ MAX_BULLETS_PER_SLIDE) ∧
    (∀ (total : Nat) (ms : Option Int),
      pointsPerSlide total ms = specPointsPerSlide total ms) ∧
    MAX_BULLETS_PER_SLIDE = 5 :=
  ⟨distributeContent_bullets_le title content maxSlides,
   fun total ms => pointsPerSlide_eq_spec total ms, rfl⟩

theorem c2_witness :
    ((("T" : String), ([] : List String)).2.length ≤ MAX_BULLETS_PER_SLIDE) ∧
    pointsPerSlide 12 (some 3) = specPointsPerSlide 12 (some 3) :=
  ⟨(c2_bullets_per_slide_cap ("T") [] none).1 (("T"), []) (by decide),
   (c2_bullets_per_slide_cap ("T") [] none).2.1 12 (some 3)⟩

/-- C3: deduplication keeps topics in input order (the result is a sublist
of the input, so first occurrences win), keeps only topics whose normalized
form is longer than five characters, and never returns two topics whose
normalized token sets have Jaccard similarity at least 0.7 (modelled
exactly: 10 times the intersection size is below 7 times the union
size for every pair of the result). -/
theorem c3_dedupe_order_and_dissimilar (ts : List String) :
    (dedupeTopics ts).Sublist ts ∧
    (∀ t ∈ dedupeTopics ts, 5 < (normalizeForComparisonL t.toList).length) ∧
    List.Pairwise (fun a b =>
      10 * ((tokenSet a) ∩ (tokenSet b)).card < 7 * ((tokenSet a) ∪ (tokenSet b)).card)
      (dedupeTopics ts) := by
  refine ⟨?_, dedupeAux_mem_P ts [] (by simp), ?_⟩
  · obtain ⟨us, hus, hsub⟩ := dedupeAux_append ts []
    rw [dedupeTopics, hus]
    simpa using hsub
  · have hP := dedupeAux_mem_P ts [] (by simp)
    have hR := dedupeAux_pairwise ts [] List.Pairwise.nil
    refine List.Pairwise.imp_of_mem ?_ hR
    intro a b ha hb hab
    exact areSimilar_false_jaccard (tokenSet_ne_empty (hP a ha))
      (tokenSet_ne_empty (hP b hb)) hab

theorem c3_witness :
    (dedupeTopics (["Network Security Basics", "Basics of Network Security",
      "Quantum Computing"])).Sublist
      (["Network Security Basics", "Basics of Network Security", "Quantum Computing"]) ∧
    5 < (normalizeForComparisonL ("Network Security Basics").toList).length :=
  ⟨(c3_dedupe_order_and_dissimilar _).1,
   (c3_dedupe_order_and_dissimilar (["Network Security Basics",
     "Basics of Network Security", "Quantum Computing"])).2.1
     ("Network Security Basics") (by decide)⟩

/-- C4 counterexample: the normalizer is not idempotent as claimed.  On the
three-character input backslash backslash star, the escape-removal pass
leaves one backslash before the star, and a second normalization removes
it, so normalize of normalize differs from normalize. -/
theorem c4_counterexample :
    cleanText (cleanText ("\\\\*")) ≠ cleanText ("\\\\*") := by decide

set_option maxHeartbeats 1000000 in
/-- C4 amended: the normalizer is idempotent on every string containing no
ampersand, no backslash and no open-angle-bracket character; on such
strings each rewriting stage is the identity and only whitespace
normalization (which is idempotent) acts.  In general a second pass can
differ, because escape removal can synthesize a fresh escape sequence and
tag removal can synthesize a fresh entity. -/
theorem c4_normalize_idempotent_on_plain (s : String)
    (h1 : '&' ∉ s.toList) (h2 : '\\' ∉ s.toList) (h3 : '<' ∉ s.toList) :
    cleanText (cleanText s) = cleanText s := by
  unfold cleanText
  rw [toList_mk]
  rw [cleanTextL_idem_plain h1 h2 h3]

theorem c4_witness : cleanText (cleanText ("a  b c")) = cleanText ("a  b c") :=
  c4_normalize_idempotent_on_plain ("a  b c") (by decide) (by decide) (by decide)

/-- C5 counterexample: a non-string input is not mapped to the empty
string.  The integer 5, whose str() rendering is the string 5, is converted
and cleaned, giving a nonempty result. -/
theorem c5_counterexample :
    validateAndCleanTextInput (PyValue.pyOther ("5")) ≠ "" := by decide

/-- C5 amended: None yields the empty string and never raises; any other
non-string value is converted with str() and then cleaned exactly like a
string input (so it yields the empty string only when its str() rendering
cleans to empty). -/
theorem c5_none_empty_nonstring_cleaned :
    validateAndCleanTextInput PyValue.pyNone = "" ∧
    ∀ r : String, validateAndCleanTextInput (PyValue.pyOther r) =
      validateAndCleanTextInput (PyValue.pyStr r) :=
  ⟨rfl, fun _ => rfl⟩

set_option maxRecDepth 100000 in
set_option maxHeartbeats 1000000 in
/-- C6 counterexample: when zero words fit, the result is not the title
hard-cut at 62 characters.  On a single 70-character word no word fits, the
accumulator stays empty and differs from the title, so the code returns
just the ellipsis. -/
theorem c6_counterexample :
    truncateTitle (String.mk (List.replicate 70 'a')) = ("...") ∧
    truncateTitle (String.mk (List.replicate 70 'a')) ≠
      String.mk ((cleanTextL (List.replicate 70 'a')).take (MAX_TITLE_LENGTH - 3) ++
        ("...").toList) := by
  constructor
  · decide
  · decide

/-- C6 amended: if the cleaned title has length at most 65 it is returned
unchanged; otherwise whole words are greedily accumulated while the length
of the accumulator, a joining space and the next word stays at most 62, and
an ellipsis is appended to the accumulated words — in particular, when zero
words fit the result is exactly the three-dot ellipsis.  The hard-cut
branch of the source is unreachable, because the accumulator never exceeds
62 characters while the cleaned title is longer than 65. -/
theorem c6_truncate_title_amended (s : String) :
    ((cleanTextL s.toList).length ≤ MAX_TITLE_LENGTH → truncateTitle s = cleanText s) ∧
    (MAX_TITLE_LENGTH < (cleanTextL s.toList).length →
      truncateTitle s = String.mk (greedyWords [] (pySplitWs (cleanTextL s.toList)) ++
        ("...").toList)) := by
  constructor
  · intro h
    show String.mk (truncateTitleL s.toList) = cleanText s
    unfold truncateTitleL
    rw [if_pos h]
    rfl
  · intro h
    show String.mk (truncateTitleL s.toList) = _
    unfold truncateTitleL
    rw [if_neg (by omega)]
    rw [if_pos (greedyWords_ne_of_long h)]

set_option maxRecDepth 100000 in
set_option maxHeartbeats 1000000 in
theorem c6_witness :
    truncateTitle (String.mk (List.replicate 70 'a')) =
      String.mk (greedyWords [] (pySplitWs (cleanTextL (List.replicate 70 'a'))) ++
        ("...").toList) :=
  (c6_truncate_title_amended (String.mk (List.replicate 70 'a'))).2 (by decide)

set_option maxRecDepth 100000 in
set_option maxHeartbeats 4000000 in
/-- C7 counterexample: a returned chunk can be longer than the original
input.  On 150 one-character clauses (301 characters in all) the clause
branch regroups everything into one group and rejoins it with a
two-character separator, returning one 451-character chunk. -/
theorem c7_counterexample :
    ¬ (∀ x ∈ splitLongBullet (String.mk clauseOverflowInput),
        x.length ≤ (String.mk clauseOverflowInput).length) := by decide

/-- C7 amended: the splitter always returns at least one chunk, and no
chunk is longer than twice the original input.  The one-chunk and
sentence-boundary paths never exceed the original length, but the clause
path rejoins the parts with a two-character separator where the consumed
separator was at least one character, so a chunk can exceed the input
(up to twice its length). -/
theorem c7_split_nonempty_and_bounded (s : String) :
    splitLongBullet s ≠ [] ∧ ∀ x ∈ splitLongBullet s, x.length ≤ 2 * s.length := by
  constructor
  · unfold splitLongBullet
    intro hcon
    rw [List.map_eq_nil_iff] at hcon
    exact splitLongBulletL_ne_nil s.toList hcon
  · intro x hx
    unfold splitLongBullet at hx
    rw [List.mem_map] at hx
    obtain ⟨y, hy, hyx⟩ := hx
    rw [← hyx]
    exact splitLongBulletL_le s.toList y hy

theorem c7_witness :
    splitLongBullet ("hello") ≠ [] ∧ ("hello" : String).length ≤ 2 * ("hello" : String).length :=
  ⟨(c7_split_nonempty_and_bounded ("hello")).1,
   (c7_split_nonempty_and_bounded ("hello")).2 ("hello") (by decide)⟩

set_option maxRecDepth 100000 in
set_option maxHeartbeats 4000000 in
/-- C8 counterexample: on the sentence-boundary path a chunk can exceed 200
characters, because the greedy regrouping counts only sentence lengths and
not the re-inserted joining spaces.  Two 100-character sentences total
exactly 200 and are grouped together, and the joined chunk has 201
characters. -/
theorem c8_counterexample :
    250 < (cleanTextL sentenceOverflowInput).length ∧
    1 < (sentenceSplitL (cleanTextL sentenceOverflowInput)).length ∧
    ¬ (∀ x ∈ splitLongBulletL sentenceOverflowInput, x.length ≤ 200) := by decide

/-- C8 amended: on the sentence-boundary path (cleaned length over 250 and
more than one sentence) the splitter splits after sentence punctuation
followed by whitespace and regroups consecutive sentences greedily; every
chunk built from two or more sentences has total sentence length at most
200 excluding the joining spaces, so such a chunk has at most
200 + (number of its sentences - 1) characters.  A chunk may therefore
exceed 200 characters, by one character per re-inserted separator (and a
single overlong sentence forms its own unbounded chunk). -/
theorem c8_sentence_regroup_amended (s : String)
    (h250 : 250 < (cleanTextL s.toList).length)
    (hsen : 1 < (sentenceSplitL (cleanTextL s.toList)).length) :
    splitLongBulletL s.toList =
      ((groupGreedy 200 0 [] (sentenceSplitL (cleanTextL s.toList))).map
        (joinWithL [' '])).filter (fun x => pyStrip x ≠ []) ∧
    ∀ g ∈ groupGreedy 200 0 [] (sentenceSplitL (cleanTextL s.toList)),
      2 ≤ g.length →
        sumLens g ≤ 200 ∧ (joinWithL [' '] g).length + 1 ≤ 200 + g.length := by
  constructor
  · unfold splitLongBulletL
    have hl : s.toList ≠ [] := by
      intro hcon
      rw [hcon] at h250
      rw [cleanTextL_nil] at h250
      simp at h250
    rw [if_neg hl, if_neg (by omega), if_pos hsen]
  · intro g hg h2
    have hcap := groupGreedy_cap 200 (sentenceSplitL (cleanTextL s.toList)) 0 []
      (by simp [sumLens]) (by intro hcon; simp at hcon) g hg h2
    refine ⟨hcap, ?_⟩
    have hne : g ≠ [] :=
      groupGreedy_ne_nil_start 200 (sentenceSplitL (cleanTextL s.toList)) g hg
    have hj := joinWithL_length [' '] g hne
    simp only [List.length_singleton] at hj
    omega

set_option maxRecDepth 100000 in
set_option maxHeartbeats 4000000 in
theorem c8_witness :
    splitLongBulletL (String.mk sentenceOverflowInput).toList =
      ((groupGreedy 200 0 []
        (sentenceSplitL (cleanTextL (String.mk sentenceOverflowInput).toList))).map
        (joinWithL [' '])).filter (fun x => pyStrip x ≠ []) :=
  (c8_sentence_regroup_amended (String.mk sentenceOverflowInput)
    (by decide) (by decide)).1

/-- C9: formatting the scenario string produces exactly the five runs of
the specification, in order, with the markers stripped from the styled
runs. -/
theorem c9_format_runs_scenario :
    applyTextFormatting ("This is **bold** and *italic* text") =
      [{ text := "This is ", bold := false, italic := false },
       { text := "bold", bold := true, italic := false },
       { text := " and ", bold := false, italic := false },
       { text := "italic", bold := false, italic := true },
       { text := " text", bold := false, italic := false }] := by decide

/-- C10: for every input string the truncated title has at most
MAX_TITLE_LENGTH = 65 characters, including the appended ellipsis on the
truncating paths. -/
theorem c10_truncate_title_bounded (s : String) :
    (truncateTitle s).length ≤ MAX_TITLE_LENGTH :=
  truncateTitleL_length s.toList

end PPT


